import Mathlib

/-!
A verification development for the metazooa/metaflora analysis program
(src/analyse.py): an outline parser that reconstructs a phylogenetic tree
from indented ASCII text, a candidate binder that attaches species labels
and propagates leaf sets, a lowest-common-ancestor computation, a greedy
decision-tree synthesizer, and a reporter computing guess statistics.

The Python program mutates a graph of TreeNode objects linked by
parent/children references.  We embed it shallowly: the heap of nodes is a
list indexed by creation order (Nat), and every Python function becomes
a pure function on that state.  Loops whose termination depends on the
shape of the graph (ancestor walks) take explicit fuel; the accompanying
lemmas show the fuel bounds chosen are sufficient on every state the parser
can produce, so fuel exhaustion never models a run the Python program
completes.  Failures (assert, KeyError, attribute error on None) become
Except errors.  Python sets are modelled as duplicate-free lists in
insertion order, and Python dicts as association lists where the most
recent binding shadows older ones.
-/

set_option maxRecDepth 20000

deriving instance DecidableEq for Except

/-- Species / node names: Python strings, modelled as lists of characters. -/
abbrev Name := List Char

/-- Python str.strip removes these characters (whitespace) from both ends. -/
def pyIsSpace (c : Char) : Bool :=
  c = ' ' || c = '\t' || c = '\n' || c = '\r' || c = '\x0b' || c = '\x0c'

/-- Python str.strip. -/
def pyStrip (s : Name) : Name :=
  ((s.dropWhile pyIsSpace).reverse.dropWhile pyIsSpace).reverse

/-- Python set.add on a set modelled as a duplicate-free list in insertion
order: append the element if it is not already present. -/
def linsert (x : α) [DecidableEq α] (l : List α) : List α :=
  if x ∈ l then l else l ++ [x]

/-- Python set union (written s |= t): insert every element of the second
set into the first. -/
def lunion [DecidableEq α] (l₁ l₂ : List α) : List α :=
  l₂.foldl (fun acc x => linsert x acc) l₁

/-- Python dict lookup on an association list; the head shadows the tail,
so prepending a pair is dict assignment. -/
def alookup [DecidableEq α] : List (α × β) → α → Option β
| [], _ => none
| (k, v) :: rest, key => if k = key then some v else alookup rest key

/-- One TreeNode of analyse.py: scientific name, depth, children list (in
attachment order), optional parent, leaf-species set (as an insertion-order
list) and the optionally bound species label. -/
structure NodeData where
  scientific : Name
  depth : Nat
  children : List Nat
  parent : Option Nat
  leaves : List Name
  species : Option Name
deriving DecidableEq, Repr

/-- The global state of the program: the heap of created TreeNodes, the
SCIENTIFIC registry (scientific name to node, last write wins) and the
SPECIES registry (species label to node). -/
structure PhyloState where
  nodes : List NodeData
  reg : List (Name × Nat)
  sreg : List (Name × Nat)
deriving DecidableEq, Repr

def defaultNode : NodeData := NodeData.mk [] 0 [] none [] none

def nodeAt (st : PhyloState) (i : Nat) : NodeData := st.nodes.getD i defaultNode

def sciOf (st : PhyloState) (i : Nat) : Name := (nodeAt st i).scientific

def depthOf (st : PhyloState) (i : Nat) : Nat := (nodeAt st i).depth

def childrenOf (st : PhyloState) (i : Nat) : List Nat := (nodeAt st i).children

def parentOf (st : PhyloState) (i : Nat) : Option Nat := (nodeAt st i).parent

def leavesOf (st : PhyloState) (i : Nat) : List Name := (nodeAt st i).leaves

def speciesOf (st : PhyloState) (i : Nat) : Option Name := (nodeAt st i).species

def updNode (st : PhyloState) (i : Nat) (nd : NodeData) : PhyloState :=
  PhyloState.mk (st.nodes.set i nd) st.reg st.sreg

/-- child.parent = self -/
def setParent (st : PhyloState) (c : Nat) (p : Nat) : PhyloState :=
  let nd := nodeAt st c
  updNode st c (NodeData.mk nd.scientific nd.depth nd.children (some p) nd.leaves nd.species)

/-- self.children.append(child) -/
def appendChild (st : PhyloState) (p : Nat) (c : Nat) : PhyloState :=
  let nd := nodeAt st p
  updNode st p (NodeData.mk nd.scientific nd.depth (nd.children ++ [c]) nd.parent nd.leaves nd.species)

/-- TreeNode.add_child: set the child's parent reference, then append the
child to the parent's children list. -/
def add_child (st : PhyloState) (p : Nat) (c : Nat) : PhyloState :=
  appendChild (setParent st c p) p c

def setLeaves (st : PhyloState) (i : Nat) (ls : List Name) : PhyloState :=
  let nd := nodeAt st i
  updNode st i (NodeData.mk nd.scientific nd.depth nd.children nd.parent ls nd.species)

def setSpecies (st : PhyloState) (i : Nat) (sp : Option Name) : PhyloState :=
  let nd := nodeAt st i
  updNode st i (NodeData.mk nd.scientific nd.depth nd.children nd.parent nd.leaves sp)

/-- TreeNode.__init__: create a node and register it in SCIENTIFIC
(overwriting any previous node of the same scientific name). -/
def newNode (st : PhyloState) (scientific : Name) (depth : Nat) : PhyloState :=
  PhyloState.mk (st.nodes ++ [NodeData.mk scientific depth [] none [] none])
    ((scientific, st.nodes.length) :: st.reg) st.sreg

/-- line.startswith((' ', '|', '+', '\\')) -/
def startsWithTreeChar : Name → Bool
| [] => false
| c :: _ => c = ' ' || c = '|' || c = '+' || c = '\\'

/-- The scan for the first two-character branch marker (+- or \-): returns
the column of the first i with line[i] in {+, \\} and line[i+1] = '-'. -/
def findMarkerAux : Name → Nat → Option Nat
| c1 :: c2 :: rest, i =>
    if (c1 = '+' || c1 = '\\') && c2 = '-' then some i
    else findMarkerAux (c2 :: rest) (i + 1)
| _, _ => none

/-- calculate_depth of analyse.py: root lines have depth 0 and name the
whole trimmed line; otherwise the marker column halved plus one is the
depth and the name is everything after the marker, trimmed.  A line with
no root form and no marker yields the empty name (and is later skipped). -/
def calculate_depth (line : Name) : Nat × Name :=
  if !startsWithTreeChar line then (0, pyStrip line)
  else
    match findMarkerAux line 0 with
    | none => (0, [])
    | some pos => (pos / 2 + 1, pyStrip (line.drop (pos + 2)))

/-- Parent resolution: the most recently seen frontier node at the nearest
depth below the new node's depth (scanning depth-1, depth-2, ..., 0). -/
def findParent (stack : List (Nat × Nat)) (depth : Nat) : Option Nat :=
  (List.range depth).reverse.findSome? (fun d => alookup stack d)

/-- stack[depth] = node (dict assignment on the frontier). -/
def setStack (stack : List (Nat × Nat)) (depth : Nat) (i : Nat) : List (Nat × Nat) :=
  (depth, i) :: stack.filter (fun e => e.1 ≠ depth)

/-- The accumulator while parsing: heap, frontier stack, root (if seen). -/
abbrev ParseAcc := PhyloState × List (Nat × Nat) × Option Nat

/-- One iteration of the line loop of parse_phylo_tree: skip blank lines
and lines with an empty computed name; otherwise create the node, make the
first node the root, attach later nodes to the frontier parent when one
exists (a node with no eligible ancestor is silently left parentless),
update the frontier at this depth and clear all deeper frontier entries. -/
def parseLine (acc : ParseAcc) (line : Name) : ParseAcc :=
  let (st, stack, root) := acc
  if (pyStrip line).isEmpty then acc
  else
    let dn := calculate_depth line
    if dn.2.isEmpty then acc
    else
      let id := st.nodes.length
      let st := newNode st dn.2 dn.1
      match root with
      | none => (st, setStack stack dn.1 id, some id)
      | some r =>
          let st :=
            match findParent stack dn.1 with
            | some p => add_child st p id
            | none => st
          ((st : PhyloState), (setStack stack dn.1 id).filter (fun e => e.1 ≤ dn.1), some r)

/-- parse_phylo_tree on a list of lines (readlines of the input file):
returns the final heap/registries and the root node, if any.  The Python
function has no failure path: it always returns. -/
def parse_phylo_tree (lines : List Name) : PhyloState × Option Nat :=
  let acc := (lines.foldl parseLine (PhyloState.mk [] [] [], [], none))
  (acc.1, acc.2.2)

/-- Failure modes of the modelled Python program: a KeyError on a registry
lookup, an AttributeError from walking past an absent parent inside the
LCA loops (or an LCA that produced no node), a failing assert statement,
and exhaustion of the explicit fuel of the embedding (which, by the fuel
sufficiency lemmas below, never models a completed Python run). -/
inductive Err where
| keyError
| lcaCrash
| assertFail
| fuelOut
deriving DecidableEq, Repr

/-- The ancestor chain of a node: the node followed by the chain of its
parent, cut off by fuel. -/
def chainF (st : PhyloState) : Nat → Nat → List Nat
| 0, _ => []
| f + 1, i =>
    i :: (match parentOf st i with
          | none => []
          | some p => chainF st f p)

/-- The candidate-binding loop of analyse.py: for each candidate record,
look the scientific name up in SCIENTIFIC (KeyError if absent), set the
node's species label, register the label in SPECIES, and add the label to
the leaves set of every node on the ancestor chain up to the root.  The
chain walk carries fuel; nodes.length + 1 covers every chain on states
whose parent references strictly decrease the node index (every parsed
state, by the lemmas below). -/
def addLeafChain : Nat → PhyloState → Nat → Name → PhyloState
| 0, st, _, _ => st
| f + 1, st, i, l =>
    let st' := setLeaves st i (linsert l (leavesOf st i))
    match parentOf st' i with
    | none => st'
    | some p => addLeafChain f st' p l

/-- One candidate record {name, scientific} is modelled as the pair
(label, scientific). -/
def bindOne (st : PhyloState) (pr : Name × Name) : Except Err PhyloState :=
  match alookup st.reg pr.2 with
  | none => Except.error Err.keyError
  | some i =>
      let st := setSpecies st i (some pr.1)
      let st := PhyloState.mk st.nodes st.reg ((pr.1, i) :: st.sreg)
      Except.ok (addLeafChain (st.nodes.length + 1) st i pr.1)

/-- The whole candidate-binding loop. -/
def bind_species (st : PhyloState) (pairs : List (Name × Name)) : Except Err PhyloState :=
  pairs.foldlM bindOne st

/-- First loop of lca_2nodes: while a.depth > target: a = a.parent.
Stepping past an absent parent is the Python AttributeError, modelled as
none.  Fuel depthOf st a + 1 is sufficient whenever parent references
strictly decrease depth. -/
def ascend (st : PhyloState) : Nat → Nat → Nat → Option Nat
| 0, target, a => if depthOf st a > target then none else some a
| f + 1, target, a =>
    if depthOf st a > target then
      match parentOf st a with
      | none => none
      | some p => ascend st f target p
    else some a

/-- Third loop of lca_2nodes: while a is not b: a = a.parent; b = b.parent.
If exactly one of the parents is absent the next iteration dereferences
None (AttributeError); if both are absent simultaneously the Python loop
exits returning the None object, which is not a node: both outcomes are
modelled as none, since no common node is reached. -/
def lockstep (st : PhyloState) : Nat → Nat → Nat → Option Nat
| 0, _, _ => none
| f + 1, a, b =>
    if a = b then some a
    else
      match parentOf st a, parentOf st b with
      | some pa, some pb => lockstep st f pa pb
      | _, _ => none

/-- lca_2nodes of analyse.py: equalise depths by walking the deeper node
up, then walk both chains in lockstep until they coincide. -/
def lca_2nodes (st : PhyloState) (a b : Nat) : Option Nat :=
  match ascend st (depthOf st a + 1) (depthOf st b) a with
  | none => none
  | some a' =>
      match ascend st (depthOf st b + 1) (depthOf st a') b with
      | none => none
      | some b' => lockstep st (depthOf st a' + 2) a' b'

/-- lca_species: resolve each label through SPECIES (none models the
KeyError) and fold lca_2nodes over the list. -/
def lca_species (st : PhyloState) : List Name → Option Nat
| [] => none
| x :: rest =>
    match alookup st.sreg x with
    | none => none
    | some a =>
        rest.foldlM (fun acc nm =>
          match alookup st.sreg nm with
          | none => none
          | some b => lca_2nodes st acc b) a

/-- Add real to the first bucket whose key equals k, or append a fresh
bucket (k, {real}) at the end: the inner loop of get_successors. -/
def bucketAdd : List (Nat × List Name) → Nat → Name → List (Nat × List Name)
| [], k, real => [(k, [real])]
| (k', s) :: rest, k, real =>
    if k' = k then (k', linsert real s) :: rest
    else (k', s) :: bucketAdd rest k real

/-- The body of the loop of get_successors: skip the guess itself,
compute the LCA of guess and candidate (a crash aborts), and add the
candidate to the bucket keyed by that LCA. -/
def gsStep (st : PhyloState) (guess : Name) (ret : List (Nat × List Name)) (real : Name) :
    Except Err (List (Nat × List Name)) :=
  if real = guess then Except.ok ret
  else
    match lca_species st [guess, real] with
    | none => Except.error Err.lcaCrash
    | some k => Except.ok (bucketAdd ret k real)

/-- get_successors of analyse.py: bucket every candidate other than the
guess by the LCA of guess and candidate.  An LCA that crashes (or yields
no node) aborts the whole computation, as in Python. -/
def get_successors (st : PhyloState) (poss : List Name) (guess : Name) :
    Except Err (List (Nat × List Name)) :=
  poss.foldlM (gsStep st guess) []

/-- Stable insertion of x before the first element y with le x y. -/
def insertB (le : α → α → Bool) (x : α) : List α → List α
| [] => [x]
| y :: ys => if le x y then x :: y :: ys else y :: insertB le x ys

/-- Stable insertion sort; Python list.sort is also a stable sort, so on a
total preorder both produce the same list. -/
def insSort (le : α → α → Bool) : List α → List α
| [] => []
| x :: xs => insertB le x (insSort le xs)

/-- Python string comparison: lexicographic on code points. -/
def nameLt : Name → Name → Bool
| [], [] => false
| [], _ :: _ => true
| _ :: _, [] => false
| c :: cs, d :: ds => if c = d then nameLt cs ds else decide (c < d)

/-- Python list-of-strings comparison, lexicographic. -/
def nameListLt : List Name → List Name → Bool
| [], [] => false
| [], _ :: _ => true
| _ :: _, [] => false
| x :: xs, y :: ys => if x = y then nameListLt xs ys else nameLt x y

/-- The sort key of build_minavg_order: (-len(child.leaves), child_order),
compared as a Python tuple.  le is the (total) "not greater than" test. -/
def minavgLe (st : PhyloState) (x y : Nat × List Name) : Bool :=
  if (leavesOf st x.1).length = (leavesOf st y.1).length then !nameListLt y.2 x.2
  else (leavesOf st y.1).length < (leavesOf st x.1).length

/-- build_minavg_order of analyse.py: recursively order each child, sort
the children by descending leaf count (ties broken by the child order
lists), concatenate, and append the node's own species last.  Fuel bounds
the recursion depth; nodes.length + 1 suffices on parsed states, where a
child's index always exceeds its parent's. -/
def build_minavg_order (st : PhyloState) : Nat → Nat → List Name
| 0, _ => []
| f + 1, node =>
    let childOrders := (childrenOf st node).map (fun sub => (sub, build_minavg_order st f sub))
    let sorted := insSort (minavgLe st) childOrders
    let ret := (sorted.map (fun co => co.2)).flatten
    match speciesOf st node with
    | none => ret
    | some s => ret ++ [s]

/-- One node of the synthesized decision tree: the subject TreeNode, the
chosen guess, and the child decision trees (the tuple
(node, guess, subs) of analyse.py). -/
inductive DTree where
| mk (subject : Nat) (guess : Name) (subs : List DTree)

def DTree.subject : DTree → Nat
| .mk n _ _ => n

def DTree.guess : DTree → Name
| .mk _ g _ => g

def DTree.subs : DTree → List DTree
| .mk _ _ s => s

/-- order_to_decision_tree of analyse.py, with fuel: pick the first label
of the global order that is among the remaining candidates (the assert
fires if there is none), bucket the rest by LCA against the guess, and
recurse into every bucket. -/
def odtGo (st : PhyloState) (order : List Name) : Nat → Nat → List Name → Except Err DTree
| 0, _, _ => Except.error Err.fuelOut
| f + 1, node, poss =>
    match order.find? (fun s => s ∈ poss) with
    | none => Except.error Err.assertFail
    | some guess =>
        match get_successors st poss guess with
        | Except.error e => Except.error e
        | Except.ok succ => do
            let brs ← succ.mapM (fun kb => odtGo st order f kb.1 kb.2)
            Except.ok (DTree.mk node guess brs)

/-- order_to_decision_tree with the canonical fuel: each recursive call
strictly shrinks the (duplicate-free) candidate set, so poss.length + 1
levels always suffice (proved below). -/
def order_to_decision_tree (st : PhyloState) (node : Nat) (poss : List Name)
    (order : List Name) : Except Err DTree :=
  odtGo st order (poss.length + 1) node poss

/-- The subs.sort(key=lambda x: x[0].depth) step of print_decision_tree:
a stable sort of the branches by subject depth. -/
def sortByDepth (st : PhyloState) (subs : List DTree) : List DTree :=
  insSort (fun x y => decide (depthOf st x.subject ≤ depthOf st y.subject)) subs

/-- The state of the branches lists after the reporter has walked the whole
tree: print_decision_tree sorts each visited subs list in place, so after
reporting every node's branch list is depth-sorted (children recursively). -/
def sortDT (st : PhyloState) : Nat → DTree → DTree
| 0, t => t
| f + 1, .mk n g subs => DTree.mk n g ((sortByDepth st subs).map (sortDT st f))

/-- The inner best_lca computation of the reporter's placement check: the
deepest LCA of spec with any previously made guess, starting from the tree
root (the best_lca is None test of the source is dead: best_lca starts at
TREE and is never None). -/
def bestLcaFold (st : PhyloState) (root : Nat) (spec : Name) (guesses : List Name) :
    Except Err Nat :=
  guesses.foldlM (fun best og =>
    match lca_species st [spec, og] with
    | none => Except.error Err.lcaCrash
    | some l => Except.ok (if depthOf st l > depthOf st best then l else best)) root

/-- The per-species placement assertion of print_decision_tree. -/
def checkPlacement (st : PhyloState) (root : Nat) (guesses : List Name)
    (node : Nat) (specs : List Name) : Except Err Unit :=
  specs.foldlM (fun _ spec => do
    let best ← bestLcaFold st root spec guesses
    if best = node then Except.ok () else Except.error Err.assertFail) ()

/-- The child-accumulation loop of print_decision_tree: recurse into each
(sorted) branch, update max_guesses and sum_guesses, assert the child
species set is disjoint from those seen so far, and union it in. -/
def rsChildren (rec : DTree → Except Err (Nat × Nat × List Name)) :
    List DTree → Nat × Nat × List Name → Except Err (Nat × Nat × List Name)
| [], acc => Except.ok acc
| sub :: rest, (mx, sm, spec) => do
    let r ← rec sub
    if (spec.inter r.2.2).isEmpty then
      rsChildren rec rest (max mx (r.1 + 1), sm + r.2.1 + r.2.2.length, lunion spec r.2.2)
    else Except.error Err.assertFail

/-- print_decision_tree of analyse.py, restricted to its statistics and
assertion structure (the report string it also builds is presentation
only and is not modelled; the avg statistic it prints is
sum_guesses / len(species), see rsAvg).  Returns
(max_guesses, sum_guesses, species). -/
def reportStats (st : PhyloState) (root : Nat) :
    Nat → DTree → List Name → Except Err (Nat × Nat × List Name)
| 0, _, _ => Except.error Err.fuelOut
| f + 1, .mk node guess subs, guesses => do
    let subs' := sortByDepth st subs
    let subGuesses := lunion guesses [guess]
    let acc ← rsChildren (fun sub => reportStats st root f sub subGuesses) subs' (1, 1, [guess])
    checkPlacement st root guesses node acc.2.2
    if acc.2.2.all (fun spec => spec ∈ leavesOf st node) then Except.ok acc
    else Except.error Err.assertFail

/-- The avg statistic printed for a node: sum_guesses / len(species),
as a rational. -/
def rsAvg (sumGuesses : Nat) (species : List Name) : ℚ :=
  (sumGuesses : ℚ) / (species.length : ℚ)

/-- All candidate labels resolved in a decision tree: the guess at each
node, over the whole tree (with fuel). -/
def treeLabels : Nat → DTree → List Name
| 0, _ => []
| f + 1, .mk _ g subs => g :: (subs.map (treeLabels f)).flatten

/-- At every node of the decision tree, the label sets of sibling branches
are pairwise disjoint (with fuel). -/
def siblingsDisjoint : Nat → DTree → Prop
| 0, _ => True
| f + 1, .mk _ _ subs =>
    (subs.map (treeLabels f)).Pairwise (fun l₁ l₂ => ∀ x, x ∈ l₁ → x ∉ l₂) ∧
    ∀ sub ∈ subs, siblingsDisjoint f sub

/-- Breadth-first closure of a set of nodes under the children relation
(one expansion step per unit of fuel; nodes.length steps reach the fixed
point). -/
def reachStep (st : PhyloState) (acc : List Nat) : List Nat :=
  lunion acc ((acc.map (childrenOf st)).flatten)

def reachManyF (st : PhyloState) : Nat → List Nat → List Nat
| 0, acc => acc
| f + 1, acc => reachManyF st f (reachStep st acc)

/-- The nodes of the tree returned by the parser: everything reachable from
the root through children lists. -/
def reachableOf (st : PhyloState) (r : Nat) : List Nat :=
  reachManyF st st.nodes.length [r]

/-- Parent references point to earlier-created nodes of strictly smaller
depth (the acyclicity invariant the parser maintains: a parent is taken
from the frontier at a depth strictly below the child's, and frontier
nodes are created before the child). -/
def ParentsWF (st : PhyloState) : Prop :=
  ∀ i, i < st.nodes.length → ∀ p, parentOf st i = some p → p < i ∧ depthOf st p < depthOf st i

/-- Every child reference is in range and agrees with the child's parent
reference. -/
def ChildWF (st : PhyloState) : Prop :=
  ∀ i, i < st.nodes.length → ∀ c, c ∈ childrenOf st i → c < st.nodes.length ∧ parentOf st c = some i

/-- Every parent reference is in range and agrees with the parent's
children list. -/
def ParChildWF (st : PhyloState) : Prop :=
  ∀ c, c < st.nodes.length → ∀ p, parentOf st c = some p → p < st.nodes.length ∧ c ∈ childrenOf st p

/-- Children lists never repeat a child. -/
def ChildNodupWF (st : PhyloState) : Prop :=
  ∀ i, i < st.nodes.length → (childrenOf st i).Nodup

/-- The structural well-formedness the parser guarantees. -/
def TreeWF (st : PhyloState) : Prop :=
  ParentsWF st ∧ ChildWF st ∧ ParChildWF st ∧ ChildNodupWF st

/-- A freshly parsed state: no species bound, all leaf sets empty. -/
def CleanWF (st : PhyloState) : Prop :=
  ∀ i, i < st.nodes.length → leavesOf st i = [] ∧ speciesOf st i = none

/-- Every parent edge decrements the depth by exactly one (the property the
specification assumes of parsed trees; the parser does not enforce it). -/
def ExactDepths (st : PhyloState) : Prop :=
  ∀ i, i < st.nodes.length → ∀ p, parentOf st i = some p →
    p < st.nodes.length ∧ depthOf st i = depthOf st p + 1

/-- Parentless nodes sit at depth 0. -/
def RootedWF (st : PhyloState) : Prop :=
  ∀ i, i < st.nodes.length → parentOf st i = none → depthOf st i = 0

/-- There is at most one node of depth 0 (a single shared root). -/
def UniqueRoot (st : PhyloState) : Prop :=
  ∀ i j, i < st.nodes.length → j < st.nodes.length →
    depthOf st i = 0 → depthOf st j = 0 → i = j

/-- A state on which the termination argument of the specification for the
LCA loops is sound: exact depth decrements, no parentless node above depth
0, and a unique shared root. -/
def LcaWF (st : PhyloState) : Prop :=
  ExactDepths st ∧ RootedWF st ∧ UniqueRoot st

/-- The complete ancestor chain of a node (enough fuel for any state whose
parent references strictly decrease the node index). -/
def chainOf (st : PhyloState) (i : Nat) : List Nat :=
  chainF st (st.nodes.length + 1) i

/-- A dummy tree for total projections out of Except. -/
def dummyTree : DTree := DTree.mk 0 [] []

def emptyState : PhyloState := PhyloState.mk [] [] []

/-- A well-formed example outline (indentation two columns per level):
R with children A and B, B with child C. -/
def exL1 : List Name := ["R".toList, "+- A".toList, "+- B".toList, "  +- C".toList]

def exST1 : PhyloState := (parse_phylo_tree exL1).1

/-- An outline whose first line is indented: the second line then finds no
frontier entry at a smaller depth and is silently orphaned. -/
def exL2 : List Name := ["+- A".toList, "+- B".toList]

def exST2 : PhyloState := (parse_phylo_tree exL2).1

/-- An outline with over-indented lines: A sits at depth 3 directly under
the root (depth 0), C at depth 3 under B (depth 2). -/
def exL3 : List Name := ["R".toList, "    +- A".toList, "  +- B".toList, "    +- C".toList]

def exST3 : PhyloState := (parse_phylo_tree exL3).1

/-- An outline in which the name A occurs on two distinct lines. -/
def exLdup : List Name := ["Root".toList, "+- A".toList, "+- A".toList]

def exSTdup : PhyloState := (parse_phylo_tree exLdup).1

/-- A complete pipeline example: R with clades X = {G, A} and Y = {B};
species g, a, b bound to G, A, B. -/
def exL4 : List Name :=
  ["R".toList, "+- X".toList, "  +- G".toList, "  +- A".toList, "+- Y".toList, "  +- B".toList]

def exP4 : List (Name × Name) :=
  [("g".toList, "G".toList), ("a".toList, "A".toList), ("b".toList, "B".toList)]

def exST4 : PhyloState := (bind_species (parse_phylo_tree exL4).1 exP4).toOption.getD emptyState

def exOrd4 : List Name := build_minavg_order exST4 (exST4.nodes.length + 1) 0

def exD4 : DTree := (order_to_decision_tree exST4 0 (leavesOf exST4 0) exOrd4).toOption.getD dummyTree

/-- The invariant maintained by the parser along its line loop: structural
well-formedness of the heap, no species or leaves yet, every frontier entry
is an existing node whose depth is its key, and the root is the first
created node (which never gains a parent). -/
def ParseInv (acc : ParseAcc) : Prop :=
  TreeWF acc.1 ∧ CleanWF acc.1 ∧
  (∀ e ∈ acc.2.1, e.2 < acc.1.nodes.length ∧ depthOf acc.1 e.2 = e.1) ∧
  ((acc.2.2 = none ∧ acc.1.nodes = [] ∧ acc.2.1 = []) ∨
   (acc.2.2 = some 0 ∧ 0 < acc.1.nodes.length ∧ parentOf acc.1 0 = none)) ∧
  (∀ e ∈ acc.1.reg, e.2 < acc.1.nodes.length) ∧
  (acc.1.reg.map Prod.snd).Nodup

theorem mem_linsert [DecidableEq α] (x y : α) (l : List α) :
    y ∈ linsert x l ↔ y = x ∨ y ∈ l := by
  unfold linsert
  by_cases h : x ∈ l
  · simp only [if_pos h]
    constructor
    · exact Or.inr
    · rintro (rfl | hy)
      · exact h
      · exact hy
  · simp [if_neg h, List.mem_append, or_comm]

theorem nodup_linsert [DecidableEq α] (x : α) (l : List α) (h : l.Nodup) :
    (linsert x l).Nodup := by
  unfold linsert
  by_cases hx : x ∈ l
  · simpa [if_pos hx]
  · simpa [if_neg hx, List.nodup_append] using And.intro h hx

theorem length_linsert_notMem [DecidableEq α] (x : α) (l : List α) (h : x ∉ l) :
    (linsert x l).length = l.length + 1 := by
  simp [linsert, if_neg h]

theorem length_linsert_mem [DecidableEq α] (x : α) (l : List α) (h : x ∈ l) :
    (linsert x l).length = l.length := by
  simp [linsert, if_pos h]

theorem mem_lunion [DecidableEq α] (l₁ l₂ : List α) (y : α) :
    y ∈ lunion l₁ l₂ ↔ y ∈ l₁ ∨ y ∈ l₂ := by
  induction l₂ generalizing l₁ with
  | nil => simp [lunion]
  | cons x xs ih =>
      show y ∈ lunion (linsert x l₁) xs ↔ _
      rw [ih, mem_linsert]
      simp only [List.mem_cons]
      tauto

theorem nodup_lunion [DecidableEq α] (l₁ l₂ : List α) (h : l₁.Nodup) :
    (lunion l₁ l₂).Nodup := by
  induction l₂ generalizing l₁ with
  | nil => exact h
  | cons x xs ih => exact ih (linsert x l₁) (nodup_linsert x l₁ h)

theorem length_lunion_disjoint [DecidableEq α] (l₁ l₂ : List α)
    (h₁ : l₁.Nodup) (h₂ : l₂.Nodup) (hd : ∀ x ∈ l₂, x ∉ l₁) :
    (lunion l₁ l₂).length = l₁.length + l₂.length := by
  induction l₂ generalizing l₁ with
  | nil => simp [lunion]
  | cons x xs ih =>
      show (lunion (linsert x l₁) xs).length = _
      have hx : x ∉ l₁ := hd x (List.mem_cons_self x xs)
      have hxs : ∀ y ∈ xs, y ∉ linsert x l₁ := by
        intro y hy
        rw [mem_linsert]
        rintro (rfl | hmem)
        · exact (List.nodup_cons.mp h₂).1 hy
        · exact hd y (List.mem_cons_of_mem x hy) hmem
      rw [ih (linsert x l₁) (nodup_linsert x l₁ h₁) (List.nodup_cons.mp h₂).2 hxs,
        length_linsert_notMem x l₁ hx]
      simp only [List.length_cons]
      omega

theorem alookup_mem [DecidableEq α] (l : List (α × β)) (k : α) (v : β)
    (h : alookup l k = some v) : (k, v) ∈ l := by
  induction l with
  | nil => simp [alookup] at h
  | cons e rest ih =>
      obtain ⟨k', v'⟩ := e
      simp only [alookup] at h
      by_cases hk : k' = k
      · rw [if_pos hk] at h
        obtain rfl : v' = v := Option.some.inj h
        subst hk
        exact List.mem_cons_self _ _
      · rw [if_neg hk] at h
        exact List.mem_cons_of_mem _ (ih h)

theorem findParent_eq_none (stack : List (Nat × Nat)) (depth : Nat)
    (h : ∀ d, d < depth → alookup stack d = none) : findParent stack depth = none := by
  unfold findParent
  rw [List.findSome?_eq_none_iff]
  intro d hd
  rw [List.mem_reverse, List.mem_range] at hd
  exact h d hd

theorem findParent_some (stack : List (Nat × Nat)) (depth : Nat) (p : Nat)
    (h : findParent stack depth = some p) :
    ∃ d, d < depth ∧ alookup stack d = some p := by
  unfold findParent at h
  obtain ⟨d, hd, hp⟩ := List.exists_of_findSome?_eq_some h
  rw [List.mem_reverse, List.mem_range] at hd
  exact ⟨d, hd, hp⟩

theorem nodeAt_updNode (st : PhyloState) (i : Nat) (nd : NodeData) (j : Nat) :
    nodeAt (updNode st i nd) j =
      if j = i ∧ i < st.nodes.length then nd else nodeAt st j := by
  unfold nodeAt updNode
  simp only [List.getD_eq_getElem?_getD, List.getElem?_set]
  by_cases hij : i = j
  · subst hij
    by_cases hlen : i < st.nodes.length
    · simp [hlen]
    · have hle : st.nodes.length ≤ i := Nat.le_of_not_lt hlen
      rw [if_pos rfl, if_neg hlen, List.getElem?_eq_none hle]
      simp [hlen]
  · rw [if_neg hij, if_neg (show ¬(j = i ∧ i < st.nodes.length) from fun hc => hij hc.1.symm)]

theorem nodeAt_newNode (st : PhyloState) (s : Name) (d : Nat) (j : Nat) :
    nodeAt (newNode st s d) j =
      if j = st.nodes.length then NodeData.mk s d [] none [] none else nodeAt st j := by
  unfold nodeAt newNode
  simp only [List.getD_eq_getElem?_getD, List.getElem?_append]
  by_cases hj : j < st.nodes.length
  · rw [if_pos hj, if_neg (Nat.ne_of_lt hj)]
  · by_cases hje : j = st.nodes.length
    · subst hje
      simp
    · have h1 : ¬ j < st.nodes.length := hj
      have hle : st.nodes.length ≤ j := Nat.le_of_not_lt hj
      have hne : j - st.nodes.length ≠ 0 :=
        Nat.sub_ne_zero_of_lt (Nat.lt_of_le_of_ne hle (Ne.symm hje))
      obtain ⟨k, hk⟩ : ∃ k, j - st.nodes.length = k + 1 := Nat.exists_eq_succ_of_ne_zero hne
      rw [if_neg h1, if_neg hje, hk, List.getElem?_eq_none hle]
      simp

theorem length_updNode (st : PhyloState) (i : Nat) (nd : NodeData) :
    (updNode st i nd).nodes.length = st.nodes.length := by
  simp [updNode]

theorem length_newNode (st : PhyloState) (s : Name) (d : Nat) :
    (newNode st s d).nodes.length = st.nodes.length + 1 := by
  simp [newNode]

theorem parentOf_newNode (st : PhyloState) (s : Name) (d : Nat) (j : Nat) :
    parentOf (newNode st s d) j = if j = st.nodes.length then none else parentOf st j := by
  unfold parentOf
  rw [nodeAt_newNode]
  by_cases h : j = st.nodes.length <;> simp [h]

theorem childrenOf_newNode (st : PhyloState) (s : Name) (d : Nat) (j : Nat) :
    childrenOf (newNode st s d) j = if j = st.nodes.length then [] else childrenOf st j := by
  unfold childrenOf
  rw [nodeAt_newNode]
  by_cases h : j = st.nodes.length <;> simp [h]

theorem depthOf_newNode (st : PhyloState) (s : Name) (d : Nat) (j : Nat) :
    depthOf (newNode st s d) j = if j = st.nodes.length then d else depthOf st j := by
  unfold depthOf
  rw [nodeAt_newNode]
  by_cases h : j = st.nodes.length <;> simp [h]

theorem sciOf_newNode (st : PhyloState) (s : Name) (d : Nat) (j : Nat) :
    sciOf (newNode st s d) j = if j = st.nodes.length then s else sciOf st j := by
  unfold sciOf
  rw [nodeAt_newNode]
  by_cases h : j = st.nodes.length <;> simp [h]

theorem leavesOf_newNode (st : PhyloState) (s : Name) (d : Nat) (j : Nat) :
    leavesOf (newNode st s d) j = if j = st.nodes.length then [] else leavesOf st j := by
  unfold leavesOf
  rw [nodeAt_newNode]
  by_cases h : j = st.nodes.length <;> simp [h]

theorem speciesOf_newNode (st : PhyloState) (s : Name) (d : Nat) (j : Nat) :
    speciesOf (newNode st s d) j = if j = st.nodes.length then none else speciesOf st j := by
  unfold speciesOf
  rw [nodeAt_newNode]
  by_cases h : j = st.nodes.length <;> simp [h]

theorem nodeAt_setParent (st : PhyloState) (c p j : Nat) :
    nodeAt (setParent st c p) j =
      if j = c ∧ c < st.nodes.length then
        NodeData.mk (nodeAt st c).scientific (nodeAt st c).depth (nodeAt st c).children
          (some p) (nodeAt st c).leaves (nodeAt st c).species
      else nodeAt st j :=
  nodeAt_updNode st c _ j

theorem nodeAt_appendChild (st : PhyloState) (p c j : Nat) :
    nodeAt (appendChild st p c) j =
      if j = p ∧ p < st.nodes.length then
        NodeData.mk (nodeAt st p).scientific (nodeAt st p).depth ((nodeAt st p).children ++ [c])
          (nodeAt st p).parent (nodeAt st p).leaves (nodeAt st p).species
      else nodeAt st j :=
  nodeAt_updNode st p _ j

theorem nodeAt_setLeaves (st : PhyloState) (i : Nat) (ls : List Name) (j : Nat) :
    nodeAt (setLeaves st i ls) j =
      if j = i ∧ i < st.nodes.length then
        NodeData.mk (nodeAt st i).scientific (nodeAt st i).depth (nodeAt st i).children
          (nodeAt st i).parent ls (nodeAt st i).species
      else nodeAt st j :=
  nodeAt_updNode st i _ j

theorem nodeAt_setSpecies (st : PhyloState) (i : Nat) (sp : Option Name) (j : Nat) :
    nodeAt (setSpecies st i sp) j =
      if j = i ∧ i < st.nodes.length then
        NodeData.mk (nodeAt st i).scientific (nodeAt st i).depth (nodeAt st i).children
          (nodeAt st i).parent (nodeAt st i).leaves sp
      else nodeAt st j :=
  nodeAt_updNode st i _ j

theorem parentOf_setParent (st : PhyloState) (c p j : Nat) :
    parentOf (setParent st c p) j =
      if j = c ∧ c < st.nodes.length then some p else parentOf st j := by
  unfold parentOf
  rw [nodeAt_setParent]
  by_cases h : j = c ∧ c < st.nodes.length
  · rw [if_pos h, if_pos h]
  · rw [if_neg h, if_neg h]

theorem childrenOf_setParent (st : PhyloState) (c p j : Nat) :
    childrenOf (setParent st c p) j = childrenOf st j := by
  unfold childrenOf
  rw [nodeAt_setParent]
  by_cases h : j = c ∧ c < st.nodes.length
  · rw [if_pos h]
    show (nodeAt st c).children = _
    rw [h.1]
  · rw [if_neg h]

theorem depthOf_setParent (st : PhyloState) (c p j : Nat) :
    depthOf (setParent st c p) j = depthOf st j := by
  unfold depthOf
  rw [nodeAt_setParent]
  by_cases h : j = c ∧ c < st.nodes.length
  · rw [if_pos h]
    show (nodeAt st c).depth = _
    rw [h.1]
  · rw [if_neg h]

theorem sciOf_setParent (st : PhyloState) (c p j : Nat) :
    sciOf (setParent st c p) j = sciOf st j := by
  unfold sciOf
  rw [nodeAt_setParent]
  by_cases h : j = c ∧ c < st.nodes.length
  · rw [if_pos h]
    show (nodeAt st c).scientific = _
    rw [h.1]
  · rw [if_neg h]

theorem leavesOf_setParent (st : PhyloState) (c p j : Nat) :
    leavesOf (setParent st c p) j = leavesOf st j := by
  unfold leavesOf
  rw [nodeAt_setParent]
  by_cases h : j = c ∧ c < st.nodes.length
  · rw [if_pos h]
    show (nodeAt st c).leaves = _
    rw [h.1]
  · rw [if_neg h]

theorem speciesOf_setParent (st : PhyloState) (c p j : Nat) :
    speciesOf (setParent st c p) j = speciesOf st j := by
  unfold speciesOf
  rw [nodeAt_setParent]
  by_cases h : j = c ∧ c < st.nodes.length
  · rw [if_pos h]
    show (nodeAt st c).species = _
    rw [h.1]
  · rw [if_neg h]

theorem childrenOf_appendChild (st : PhyloState) (p c j : Nat) :
    childrenOf (appendChild st p c) j =
      if j = p ∧ p < st.nodes.length then childrenOf st p ++ [c] else childrenOf st j := by
  unfold childrenOf
  rw [nodeAt_appendChild]
  by_cases h : j = p ∧ p < st.nodes.length
  · rw [if_pos h, if_pos h]
  · rw [if_neg h, if_neg h]

theorem parentOf_appendChild (st : PhyloState) (p c j : Nat) :
    parentOf (appendChild st p c) j = parentOf st j := by
  unfold parentOf
  rw [nodeAt_appendChild]
  by_cases h : j = p ∧ p < st.nodes.length
  · rw [if_pos h]
    show (nodeAt st p).parent = _
    rw [h.1]
  · rw [if_neg h]

theorem depthOf_appendChild (st : PhyloState) (p c j : Nat) :
    depthOf (appendChild st p c) j = depthOf st j := by
  unfold depthOf
  rw [nodeAt_appendChild]
  by_cases h : j = p ∧ p < st.nodes.length
  · rw [if_pos h]
    show (nodeAt st p).depth = _
    rw [h.1]
  · rw [if_neg h]

theorem sciOf_appendChild (st : PhyloState) (p c j : Nat) :
    sciOf (appendChild st p c) j = sciOf st j := by
  unfold sciOf
  rw [nodeAt_appendChild]
  by_cases h : j = p ∧ p < st.nodes.length
  · rw [if_pos h]
    show (nodeAt st p).scientific = _
    rw [h.1]
  · rw [if_neg h]

theorem leavesOf_appendChild (st : PhyloState) (p c j : Nat) :
    leavesOf (appendChild st p c) j = leavesOf st j := by
  unfold leavesOf
  rw [nodeAt_appendChild]
  by_cases h : j = p ∧ p < st.nodes.length
  · rw [if_pos h]
    show (nodeAt st p).leaves = _
    rw [h.1]
  · rw [if_neg h]

theorem speciesOf_appendChild (st : PhyloState) (p c j : Nat) :
    speciesOf (appendChild st p c) j = speciesOf st j := by
  unfold speciesOf
  rw [nodeAt_appendChild]
  by_cases h : j = p ∧ p < st.nodes.length
  · rw [if_pos h]
    show (nodeAt st p).species = _
    rw [h.1]
  · rw [if_neg h]

theorem length_setParent (st : PhyloState) (c p : Nat) :
    (setParent st c p).nodes.length = st.nodes.length := length_updNode _ _ _

theorem length_appendChild (st : PhyloState) (p c : Nat) :
    (appendChild st p c).nodes.length = st.nodes.length := length_updNode _ _ _

theorem length_add_child (st : PhyloState) (p c : Nat) :
    (add_child st p c).nodes.length = st.nodes.length := by
  unfold add_child
  rw [length_appendChild, length_setParent]

theorem parentOf_add_child (st : PhyloState) (p c j : Nat) :
    parentOf (add_child st p c) j =
      if j = c ∧ c < st.nodes.length then some p else parentOf st j := by
  unfold add_child
  rw [parentOf_appendChild, parentOf_setParent]

theorem childrenOf_add_child (st : PhyloState) (p c j : Nat) :
    childrenOf (add_child st p c) j =
      if j = p ∧ p < st.nodes.length then childrenOf st p ++ [c] else childrenOf st j := by
  unfold add_child
  rw [childrenOf_appendChild, length_setParent, childrenOf_setParent, childrenOf_setParent]

theorem depthOf_add_child (st : PhyloState) (p c j : Nat) :
    depthOf (add_child st p c) j = depthOf st j := by
  unfold add_child
  rw [depthOf_appendChild, depthOf_setParent]

theorem sciOf_add_child (st : PhyloState) (p c j : Nat) :
    sciOf (add_child st p c) j = sciOf st j := by
  unfold add_child
  rw [sciOf_appendChild, sciOf_setParent]

theorem leavesOf_add_child (st : PhyloState) (p c j : Nat) :
    leavesOf (add_child st p c) j = leavesOf st j := by
  unfold add_child
  rw [leavesOf_appendChild, leavesOf_setParent]

theorem speciesOf_add_child (st : PhyloState) (p c j : Nat) :
    speciesOf (add_child st p c) j = speciesOf st j := by
  unfold add_child
  rw [speciesOf_appendChild, speciesOf_setParent]

theorem reg_add_child (st : PhyloState) (p c : Nat) : (add_child st p c).reg = st.reg := rfl

theorem reg_newNode (st : PhyloState) (s : Name) (d : Nat) :
    (newNode st s d).reg = (s, st.nodes.length) :: st.reg := rfl

theorem parseLine_blank (acc : ParseAcc) (line : Name)
    (hb : (pyStrip line).isEmpty = true) : parseLine acc line = acc := by
  obtain ⟨st, stack, root⟩ := acc
  simp [parseLine, hb]

theorem parseLine_noname (acc : ParseAcc) (line : Name)
    (hb : (pyStrip line).isEmpty = false) (hnm : (calculate_depth line).2.isEmpty = true) :
    parseLine acc line = acc := by
  obtain ⟨st, stack, root⟩ := acc
  simp [parseLine, hb, hnm]

theorem parseLine_root (st : PhyloState) (stack : List (Nat × Nat)) (line : Name)
    (d : Nat) (nm : Name)
    (hb : (pyStrip line).isEmpty = false) (hcd : calculate_depth line = (d, nm))
    (hnm : nm.isEmpty = false) :
    parseLine (st, stack, none) line =
      (newNode st nm d, setStack stack d st.nodes.length, some st.nodes.length) := by
  simp [parseLine, hb, hcd, hnm]

theorem parseLine_attach (st : PhyloState) (stack : List (Nat × Nat)) (r : Nat)
    (line : Name) (d : Nat) (nm : Name) (p : Nat)
    (hb : (pyStrip line).isEmpty = false) (hcd : calculate_depth line = (d, nm))
    (hnm : nm.isEmpty = false) (hfp : findParent stack d = some p) :
    parseLine (st, stack, some r) line =
      (add_child (newNode st nm d) p st.nodes.length,
       (setStack stack d st.nodes.length).filter (fun e => e.1 ≤ d), some r) := by
  simp [parseLine, hb, hcd, hnm, hfp]

theorem parseLine_orphan (st : PhyloState) (stack : List (Nat × Nat)) (r : Nat)
    (line : Name) (d : Nat) (nm : Name)
    (hb : (pyStrip line).isEmpty = false) (hcd : calculate_depth line = (d, nm))
    (hnm : nm.isEmpty = false) (hfp : findParent stack d = none) :
    parseLine (st, stack, some r) line =
      (newNode st nm d,
       (setStack stack d st.nodes.length).filter (fun e => e.1 ≤ d), some r) := by
  simp [parseLine, hb, hcd, hnm, hfp]

theorem parseLine_inv (acc : ParseAcc) (line : Name) (h : ParseInv acc) :
    ParseInv (parseLine acc line) := by
  obtain ⟨st, stack, root⟩ := acc
  by_cases hb : (pyStrip line).isEmpty
  · rw [parseLine_blank _ _ hb]
    exact h
  · have hb' : (pyStrip line).isEmpty = false := by
      revert hb
      cases (pyStrip line).isEmpty <;> simp
    rcases hcd : calculate_depth line with ⟨d, nm⟩
    by_cases hnm : nm.isEmpty
    · rw [parseLine_noname _ _ hb' (by rw [hcd]; exact hnm)]
      exact h
    · have hnm' : nm.isEmpty = false := by
        revert hnm
        cases nm.isEmpty <;> simp
      obtain ⟨hTW, hCL, hSt, hR, hRV, hRN⟩ := h
      obtain ⟨hPW, hCW, hPC, hND⟩ := hTW
      dsimp only at hPW hCW hPC hND hCL hSt hR hRV hRN
      cases root with
      | none =>
          rcases hR with ⟨hrn, hnil, hsnil⟩ | ⟨hr0, hpos, hpar⟩
          · rw [parseLine_root st stack line d nm hb' hcd hnm']
            unfold ParseInv TreeWF
            dsimp only
            have hlen0 : st.nodes.length = 0 := by rw [hnil]; rfl
            have hlen1 : (newNode st nm d).nodes.length = 1 := by
              rw [length_newNode, hlen0]
            refine ⟨⟨?_, ?_, ?_, ?_⟩, ?_, ?_, Or.inr ⟨?_, ?_, ?_⟩, ?_, ?_⟩
            · intro i hi p hp
              rw [hlen1] at hi
              have hi0 : i = 0 := by omega
              rw [parentOf_newNode, hlen0, if_pos hi0] at hp
              exact absurd hp (by simp)
            · intro i hi c hc
              rw [hlen1] at hi
              have hi0 : i = 0 := by omega
              rw [childrenOf_newNode, hlen0, if_pos hi0] at hc
              exact absurd hc (by simp)
            · intro c hc p hp
              rw [hlen1] at hc
              have hc0 : c = 0 := by omega
              rw [parentOf_newNode, hlen0, if_pos hc0] at hp
              exact absurd hp (by simp)
            · intro i hi
              rw [hlen1] at hi
              have hi0 : i = 0 := by omega
              rw [childrenOf_newNode, hlen0, if_pos hi0]
              exact List.nodup_nil
            · intro i hi
              rw [hlen1] at hi
              have hi0 : i = 0 := by omega
              rw [leavesOf_newNode, speciesOf_newNode, hlen0, if_pos hi0, if_pos hi0]
              exact ⟨rfl, rfl⟩
            · intro e he
              rw [hsnil] at he
              simp only [setStack, List.filter_nil] at he
              rw [List.mem_singleton] at he
              subst he
              constructor
              · dsimp only
                rw [hlen1, hlen0]
                omega
              · dsimp only
                rw [depthOf_newNode, hlen0]
                simp
            · rw [hlen0]
            · rw [hlen1]
              omega
            · have h00 : (0 : Nat) = st.nodes.length := by omega
              rw [parentOf_newNode, if_pos h00]
            · intro e he
              rw [reg_newNode] at he
              rcases List.mem_cons.mp he with rfl | he2
              · rw [hlen1, hlen0]
                omega
              · have := hRV e he2
                rw [hlen0] at this
                exact absurd this (by omega)
            · rw [reg_newNode, List.map_cons, List.nodup_cons]
              constructor
              · intro hmem
                rw [List.mem_map] at hmem
                obtain ⟨e, he, hsnd⟩ := hmem
                have := hRV e he
                rw [hlen0] at this
                exact absurd this (by omega)
              · exact hRN
          · exact absurd hr0 (by simp)
      | some r =>
          rcases hR with ⟨hrn, hnil, hsnil⟩ | ⟨hr0, hpos, hpar⟩
          · exact absurd hrn (by simp)
          · obtain rfl : r = 0 := Option.some.inj hr0
            have h0n : ¬ (0 : Nat) = st.nodes.length := by omega
            cases hfp : findParent stack d with
            | none =>
                rw [parseLine_orphan st stack 0 line d nm hb' hcd hnm' hfp]
                unfold ParseInv TreeWF
                dsimp only
                have hP1 : ∀ j, parentOf (newNode st nm d) j =
                    if j = st.nodes.length then none else parentOf st j := fun j =>
                  parentOf_newNode st nm d j
                have hC1 : ∀ j, childrenOf (newNode st nm d) j =
                    if j = st.nodes.length then [] else childrenOf st j := fun j =>
                  childrenOf_newNode st nm d j
                have hD1 : ∀ j, depthOf (newNode st nm d) j =
                    if j = st.nodes.length then d else depthOf st j := fun j =>
                  depthOf_newNode st nm d j
                have hlenN : (newNode st nm d).nodes.length = st.nodes.length + 1 :=
                  length_newNode st nm d
                refine ⟨⟨?_, ?_, ?_, ?_⟩, ?_, ?_, Or.inr ⟨rfl, ?_, ?_⟩, ?_, ?_⟩
                · intro i hi p hp
                  rw [hP1] at hp
                  rw [length_newNode] at hi
                  by_cases hin : i = st.nodes.length
                  · rw [if_pos hin] at hp
                    exact absurd hp (by simp)
                  · rw [if_neg hin] at hp
                    have hi' : i < st.nodes.length := by omega
                    obtain ⟨h1, h2⟩ := hPW i hi' p hp
                    have hpn2 : ¬ p = st.nodes.length := by omega
                    refine ⟨h1, ?_⟩
                    rw [hD1, hD1, if_neg hin, if_neg hpn2]
                    exact h2
                · intro i hi c hc
                  rw [hC1] at hc
                  rw [length_newNode] at hi
                  by_cases hin : i = st.nodes.length
                  · rw [if_pos hin] at hc
                    exact absurd hc (by simp)
                  · rw [if_neg hin] at hc
                    have hi' : i < st.nodes.length := by omega
                    obtain ⟨h1, h2⟩ := hCW i hi' c hc
                    have hcn2 : ¬ c = st.nodes.length := by omega
                    refine ⟨by omega, ?_⟩
                    rw [hP1, if_neg hcn2]
                    exact h2
                · intro c hc p hp
                  rw [hP1] at hp
                  rw [length_newNode] at hc
                  by_cases hcn : c = st.nodes.length
                  · rw [if_pos hcn] at hp
                    exact absurd hp (by simp)
                  · rw [if_neg hcn] at hp
                    have hc' : c < st.nodes.length := by omega
                    obtain ⟨h1, h2⟩ := hPC c hc' p hp
                    have hpn2 : ¬ p = st.nodes.length := by omega
                    refine ⟨by omega, ?_⟩
                    rw [hC1, if_neg hpn2]
                    exact h2
                · intro i hi
                  rw [hC1]
                  rw [length_newNode] at hi
                  by_cases hin : i = st.nodes.length
                  · rw [if_pos hin]
                    exact List.nodup_nil
                  · rw [if_neg hin]
                    exact hND i (by omega)
                · intro i hi
                  rw [leavesOf_newNode, speciesOf_newNode]
                  rw [length_newNode] at hi
                  by_cases hin : i = st.nodes.length
                  · rw [if_pos hin, if_pos hin]
                    exact ⟨rfl, rfl⟩
                  · rw [if_neg hin, if_neg hin]
                    exact hCL i (by omega)
                · intro e he
                  rw [List.mem_filter] at he
                  obtain ⟨he, _⟩ := he
                  simp only [setStack, List.mem_cons] at he
                  rcases he with rfl | he
                  · constructor
                    · dsimp only
                      rw [length_newNode]
                      omega
                    · dsimp only
                      rw [hD1, if_pos rfl]
                  · rw [List.mem_filter] at he
                    obtain ⟨he, _⟩ := he
                    obtain ⟨h1, h2⟩ := hSt e he
                    have hen : ¬ e.2 = st.nodes.length := by omega
                    constructor
                    · rw [length_newNode]
                      omega
                    · rw [hD1, if_neg hen]
                      exact h2
                · rw [length_newNode]
                  omega
                · rw [hP1, if_neg h0n]
                  exact hpar
                · intro e he
                  rw [reg_newNode] at he
                  rw [length_newNode]
                  rcases List.mem_cons.mp he with rfl | he2
                  · omega
                  · have := hRV e he2
                    omega
                · rw [reg_newNode, List.map_cons, List.nodup_cons]
                  constructor
                  · intro hmem
                    rw [List.mem_map] at hmem
                    obtain ⟨e, he, hsnd⟩ := hmem
                    have := hRV e he
                    omega
                  · exact hRN
            | some p =>
                rw [parseLine_attach st stack 0 line d nm p hb' hcd hnm' hfp]
                unfold ParseInv TreeWF
                dsimp only
                obtain ⟨d', hd', hal⟩ := findParent_some stack d p hfp
                have hmem := alookup_mem stack d' p hal
                obtain ⟨hpn, hpd⟩ := hSt (d', p) hmem
                dsimp only at hpn hpd
                have hpn' : ¬ p = st.nodes.length := by omega
                have hlen2 : (add_child (newNode st nm d) p st.nodes.length).nodes.length =
                    st.nodes.length + 1 := by
                  rw [length_add_child, length_newNode]
                have hnlt : st.nodes.length < st.nodes.length + 1 := by omega
                have hP2 : ∀ j, parentOf (add_child (newNode st nm d) p st.nodes.length) j =
                    if j = st.nodes.length then some p else parentOf st j := by
                  intro j
                  rw [parentOf_add_child, length_newNode, parentOf_newNode]
                  by_cases hj : j = st.nodes.length
                  · rw [if_pos ⟨hj, hnlt⟩, if_pos hj]
                  · rw [if_neg (fun hc => hj hc.1), if_neg hj, if_neg hj]
                have hplt : p < st.nodes.length + 1 := by omega
                have hC2 : ∀ j, childrenOf (add_child (newNode st nm d) p st.nodes.length) j =
                    if j = p then childrenOf st p ++ [st.nodes.length]
                    else if j = st.nodes.length then [] else childrenOf st j := by
                  intro j
                  rw [childrenOf_add_child, length_newNode, childrenOf_newNode,
                    childrenOf_newNode]
                  by_cases hj : j = p
                  · rw [if_pos ⟨hj, hplt⟩, if_pos hj, if_neg hpn']
                  · rw [if_neg (fun hc => hj hc.1), if_neg hj]
                have hD2 : ∀ j, depthOf (add_child (newNode st nm d) p st.nodes.length) j =
                    if j = st.nodes.length then d else depthOf st j := by
                  intro j
                  rw [depthOf_add_child, depthOf_newNode]
                have hL2 : ∀ j, leavesOf (add_child (newNode st nm d) p st.nodes.length) j =
                    if j = st.nodes.length then [] else leavesOf st j := by
                  intro j
                  rw [leavesOf_add_child, leavesOf_newNode]
                have hS2 : ∀ j, speciesOf (add_child (newNode st nm d) p st.nodes.length) j =
                    if j = st.nodes.length then none else speciesOf st j := by
                  intro j
                  rw [speciesOf_add_child, speciesOf_newNode]
                refine ⟨⟨?_, ?_, ?_, ?_⟩, ?_, ?_, Or.inr ⟨rfl, ?_, ?_⟩, ?_, ?_⟩
                · intro i hi q hq
                  rw [hP2] at hq
                  rw [hlen2] at hi
                  by_cases hin : i = st.nodes.length
                  · rw [if_pos hin] at hq
                    obtain rfl : q = p := (Option.some.inj hq).symm
                    have hqi : q < i := by omega
                    refine ⟨hqi, ?_⟩
                    rw [hD2, hD2, if_pos hin, if_neg hpn', hpd]
                    exact hd'
                  · rw [if_neg hin] at hq
                    have hi' : i < st.nodes.length := by omega
                    obtain ⟨h1, h2⟩ := hPW i hi' q hq
                    have hqn : ¬ q = st.nodes.length := by omega
                    refine ⟨h1, ?_⟩
                    rw [hD2, hD2, if_neg hin, if_neg hqn]
                    exact h2
                · intro i hi c hc
                  rw [hC2] at hc
                  rw [hlen2] at hi
                  by_cases hip : i = p
                  · rw [if_pos hip] at hc
                    rw [List.mem_append, List.mem_singleton] at hc
                    rcases hc with hc | rfl
                    · obtain ⟨h1, h2⟩ := hCW p hpn c hc
                      have hcn : ¬ c = st.nodes.length := by omega
                      refine ⟨by omega, ?_⟩
                      rw [hP2, if_neg hcn, hip]
                      exact h2
                    · refine ⟨by omega, ?_⟩
                      rw [hP2, if_pos rfl, hip]
                  · rw [if_neg hip] at hc
                    by_cases hin : i = st.nodes.length
                    · rw [if_pos hin] at hc
                      exact absurd hc (by simp)
                    · rw [if_neg hin] at hc
                      have hi' : i < st.nodes.length := by omega
                      obtain ⟨h1, h2⟩ := hCW i hi' c hc
                      have hcn : ¬ c = st.nodes.length := by omega
                      refine ⟨by omega, ?_⟩
                      rw [hP2, if_neg hcn]
                      exact h2
                · intro c hc q hq
                  rw [hP2] at hq
                  rw [hlen2] at hc
                  by_cases hcn : c = st.nodes.length
                  · rw [if_pos hcn] at hq
                    obtain rfl : q = p := (Option.some.inj hq).symm
                    refine ⟨by omega, ?_⟩
                    rw [hC2, if_pos rfl, hcn]
                    exact List.mem_append_right _ (List.mem_singleton_self _)
                  · rw [if_neg hcn] at hq
                    have hc' : c < st.nodes.length := by omega
                    obtain ⟨h1, h2⟩ := hPC c hc' q hq
                    refine ⟨by omega, ?_⟩
                    rw [hC2]
                    by_cases hqp : q = p
                    · rw [if_pos hqp]
                      exact List.mem_append_left _ (hqp ▸ h2)
                    · have hqn : ¬ q = st.nodes.length := by omega
                      rw [if_neg hqp, if_neg hqn]
                      exact h2
                · intro i hi
                  rw [hC2]
                  rw [hlen2] at hi
                  by_cases hip : i = p
                  · rw [if_pos hip]
                    rw [List.nodup_append]
                    refine ⟨hND p hpn, List.nodup_singleton _, ?_⟩
                    intro a ha hb2
                    rw [List.mem_singleton] at hb2
                    subst hb2
                    exact absurd (hCW p hpn _ ha).1 (by omega)
                  · rw [if_neg hip]
                    by_cases hin : i = st.nodes.length
                    · rw [if_pos hin]
                      exact List.nodup_nil
                    · rw [if_neg hin]
                      exact hND i (by omega)
                · intro i hi
                  rw [hL2, hS2]
                  rw [hlen2] at hi
                  by_cases hin : i = st.nodes.length
                  · rw [if_pos hin, if_pos hin]
                    exact ⟨rfl, rfl⟩
                  · rw [if_neg hin, if_neg hin]
                    exact hCL i (by omega)
                · intro e he
                  rw [List.mem_filter] at he
                  obtain ⟨he, _⟩ := he
                  simp only [setStack, List.mem_cons] at he
                  rcases he with rfl | he
                  · constructor
                    · dsimp only
                      rw [hlen2]
                      omega
                    · dsimp only
                      rw [hD2, if_pos rfl]
                  · rw [List.mem_filter] at he
                    obtain ⟨he, _⟩ := he
                    obtain ⟨h1, h2⟩ := hSt e he
                    have hen : ¬ e.2 = st.nodes.length := by omega
                    constructor
                    · rw [hlen2]
                      omega
                    · rw [hD2, if_neg hen]
                      exact h2
                · rw [hlen2]
                  omega
                · rw [hP2, if_neg h0n]
                  exact hpar
                · intro e he
                  rw [reg_add_child, reg_newNode] at he
                  rw [hlen2]
                  rcases List.mem_cons.mp he with rfl | he2
                  · omega
                  · have := hRV e he2
                    omega
                · rw [reg_add_child, reg_newNode, List.map_cons, List.nodup_cons]
                  constructor
                  · intro hmem
                    rw [List.mem_map] at hmem
                    obtain ⟨e, he, hsnd⟩ := hmem
                    have := hRV e he
                    omega
                  · exact hRN

theorem foldl_parseLine_inv (lines : List Name) (acc : ParseAcc) (h : ParseInv acc) :
    ParseInv (lines.foldl parseLine acc) := by
  induction lines generalizing acc with
  | nil => exact h
  | cons l ls ih => exact ih _ (parseLine_inv acc l h)

theorem parseInv_init : ParseInv (PhyloState.mk [] [] [], [], none) := by
  refine ⟨⟨?_, ?_, ?_, ?_⟩, ?_, ?_, Or.inl ⟨rfl, rfl, rfl⟩, ?_, ?_⟩
  · intro i hi
    simp at hi
  · intro i hi
    simp at hi
  · intro c hc
    simp at hc
  · intro i hi
    simp at hi
  · intro i hi
    simp at hi
  · intro e he
    simp at he
  · intro e he
    simp at he
  · simp

theorem parse_phylo_tree_inv (lines : List Name) :
    ParseInv (lines.foldl parseLine (PhyloState.mk [] [] [], [], none)) :=
  foldl_parseLine_inv lines _ parseInv_init

theorem parse_wf (lines : List Name) :
    TreeWF (parse_phylo_tree lines).1 ∧ CleanWF (parse_phylo_tree lines).1 ∧
    (∀ r, (parse_phylo_tree lines).2 = some r →
      r = 0 ∧ parentOf (parse_phylo_tree lines).1 r = none ∧
      r < (parse_phylo_tree lines).1.nodes.length) := by
  obtain ⟨hTW, hCL, hSt, hR, hRV, hRN⟩ := parse_phylo_tree_inv lines
  refine ⟨hTW, hCL, ?_⟩
  intro r hr
  rcases hR with ⟨hrn, hnil, hsnil⟩ | ⟨hr0, hpos, hpar⟩
  · rw [show (parse_phylo_tree lines).2 =
      (lines.foldl parseLine (PhyloState.mk [] [] [], [], none)).2.2 from rfl, hrn] at hr
    exact absurd hr (by simp)
  · rw [show (parse_phylo_tree lines).2 =
      (lines.foldl parseLine (PhyloState.mk [] [] [], [], none)).2.2 from rfl, hr0] at hr
    obtain rfl : r = 0 := (Option.some.inj hr).symm
    exact ⟨rfl, hpar, hpos⟩

/-- A node is in at most one children list, at most once: the consequence
of parent-children coherence. -/
theorem child_unique_parent (st : PhyloState) (h : TreeWF st) :
    ∀ i j c, i < st.nodes.length → j < st.nodes.length →
      c ∈ childrenOf st i → c ∈ childrenOf st j → i = j := by
  intro i j c hi hj hci hcj
  obtain ⟨hPW, hCW, hPC, hND⟩ := h
  have h1 := (hCW i hi c hci).2
  have h2 := (hCW j hj c hcj).2
  rw [h1] at h2
  exact Option.some.inj h2

theorem nodeAt_out (st : PhyloState) (j : Nat) (h : st.nodes.length ≤ j) :
    nodeAt st j = defaultNode := by
  unfold nodeAt
  rw [List.getD_eq_getElem?_getD, List.getElem?_eq_none h]
  rfl

/-- C3: the claim says a non-root line whose depth has no smaller-depth
frontier entry makes the parser fail.  In fact parse_phylo_tree has no
failure path at all: the node is created, attached to no parent, and the
returned tree (the nodes reachable from the root) silently omits it.
Concretely, parsing the two lines "+- A" / "+- B" returns the root A
normally while node B (created, named B) has no parent and is not
reachable from the root. -/
theorem c3_counterexample :
    (parse_phylo_tree exL2).2 = some 0 ∧
    exST2.nodes.length = 2 ∧
    sciOf exST2 1 = "B".toList ∧
    parentOf exST2 1 = none ∧
    reachableOf exST2 0 = [0] := by decide

/-- C3 (amended): when a non-root line computes depth d and the frontier
has no entry at any depth below d, the parser does not fail: it creates
the node, leaves its parent absent, adds it to no children list, and
continues with the frontier updated at depth d. -/
theorem c3_unresolvable_parent_orphans (st : PhyloState) (stack : List (Nat × Nat))
    (r : Nat) (line : Name) (d : Nat) (nm : Name)
    (hb : (pyStrip line).isEmpty = false)
    (hcd : calculate_depth line = (d, nm))
    (hnm : nm.isEmpty = false)
    (hfr : ∀ d2, d2 < d → alookup stack d2 = none) :
    parseLine (st, stack, some r) line =
      (newNode st nm d,
       (setStack stack d st.nodes.length).filter (fun e => e.1 ≤ d), some r) ∧
    parentOf (newNode st nm d) st.nodes.length = none ∧
    (∀ j, childrenOf (newNode st nm d) j = childrenOf st j) := by
  have hfp : findParent stack d = none := findParent_eq_none stack d hfr
  refine ⟨parseLine_orphan st stack r line d nm hb hcd hnm hfp, ?_, ?_⟩
  · rw [parentOf_newNode, if_pos rfl]
  · intro j
    rw [childrenOf_newNode]
    by_cases hj : j = st.nodes.length
    · rw [if_pos hj]
      unfold childrenOf
      rw [hj, nodeAt_out st _ (Nat.le_refl _)]
      rfl
    · rw [if_neg hj]

theorem c3_witness :
    parentOf (newNode exST1 ("Q".toList) 1) exST1.nodes.length = none ∧
    childrenOf (newNode exST1 ("Q".toList) 1) 0 = childrenOf exST1 0 := by
  have h := c3_unresolvable_parent_orphans exST1 [] 0 ("+- Q".toList) 1 ("Q".toList)
    (by decide) (by decide) (by decide) (by decide)
  exact ⟨h.2.1, h.2.2 0⟩

/-- C4: the claim says a duplicated node name makes parsing fail.  In fact
the parser accepts it: parsing "Root" / "+- A" / "+- A" returns a tree
with two distinct reachable nodes both named A, and the SCIENTIFIC
registry maps A to the most recently created of the two. -/
theorem c4_counterexample :
    (parse_phylo_tree exLdup).2 = some 0 ∧
    exSTdup.nodes.length = 3 ∧
    sciOf exSTdup 1 = "A".toList ∧
    sciOf exSTdup 2 = "A".toList ∧
    alookup exSTdup.reg ("A".toList) = some 2 ∧
    (1 : Nat) ∈ reachableOf exSTdup 0 ∧
    (2 : Nat) ∈ reachableOf exSTdup 0 := by decide

/-- C4 (amended): a line whose name is already registered is parsed like
any other: the parser does not fail, a second node with the same name is
created, the registry now maps the name to the new node (last write wins),
and the names of all existing nodes are untouched. -/
theorem c4_duplicate_names_accepted (st : PhyloState) (stack : List (Nat × Nat))
    (r : Nat) (line : Name) (d : Nat) (nm : Name) (j : Nat)
    (hb : (pyStrip line).isEmpty = false)
    (hcd : calculate_depth line = (d, nm))
    (hnm : nm.isEmpty = false)
    (hdup : alookup st.reg nm = some j) :
    (parseLine (st, stack, some r) line).1.nodes.length = st.nodes.length + 1 ∧
    sciOf (parseLine (st, stack, some r) line).1 st.nodes.length = nm ∧
    alookup (parseLine (st, stack, some r) line).1.reg nm = some st.nodes.length ∧
    (∀ i, i < st.nodes.length → sciOf (parseLine (st, stack, some r) line).1 i = sciOf st i) ∧
    (parseLine (st, stack, some r) line).2.2 = some r := by
  cases hfp : findParent stack d with
  | none =>
      rw [parseLine_orphan st stack r line d nm hb hcd hnm hfp]
      dsimp only
      refine ⟨length_newNode st nm d, ?_, ?_, ?_, rfl⟩
      · rw [sciOf_newNode, if_pos rfl]
      · rw [reg_newNode]
        simp [alookup]
      · intro i hi
        have hine : ¬ i = st.nodes.length := by omega
        rw [sciOf_newNode, if_neg hine]
  | some p =>
      rw [parseLine_attach st stack r line d nm p hb hcd hnm hfp]
      dsimp only
      refine ⟨?_, ?_, ?_, ?_, rfl⟩
      · rw [length_add_child, length_newNode]
      · rw [sciOf_add_child, sciOf_newNode, if_pos rfl]
      · rw [reg_add_child, reg_newNode]
        simp [alookup]
      · intro i hi
        have hine : ¬ i = st.nodes.length := by omega
        rw [sciOf_add_child, sciOf_newNode, if_neg hine]

theorem c4_witness :
    (parseLine (exST1, [], some 0) ("+- A".toList)).1.nodes.length = exST1.nodes.length + 1 ∧
    alookup (parseLine (exST1, [], some 0) ("+- A".toList)).1.reg ("A".toList) =
      some exST1.nodes.length ∧
    sciOf (parseLine (exST1, [], some 0) ("+- A".toList)).1 1 = sciOf exST1 1 := by
  have h := c4_duplicate_names_accepted exST1 [] 0 ("+- A".toList) 1 ("A".toList) 1
    (by decide) (by decide) (by decide) (by decide)
  exact ⟨h.1, h.2.2.1, h.2.2.2.1 1 (by decide)⟩

/-- C7: the claim asserts parsed trees are acyclic and connected, with
unique parents and child depth equal to parent depth + 1.  The depth-jump
part is false: in the outline R / "    +- A" / "  +- B" / "    +- C", node
A (depth 3) is attached directly under the root R (depth 0), so its depth
is not its parent's depth + 1; and connectedness is false: in the outline
of c3, node B is parentless yet not the root, unreachable from it. -/
theorem c7_counterexample :
    parentOf exST3 1 = some 0 ∧ depthOf exST3 1 = 3 ∧ depthOf exST3 0 = 0 ∧
    ¬ depthOf exST3 1 = depthOf exST3 0 + 1 ∧
    1 < exST2.nodes.length ∧ parentOf exST2 1 = none ∧
    ¬ (1 : Nat) ∈ reachableOf exST2 0 := by decide

/-- C7 (amended): every tree produced by the Outline Parser is acyclic
(each parent reference points to an earlier-created node of strictly
smaller depth, so parent chains terminate), parent and children references
agree, every node has at most one parent (and is in at most one children
list), children lists have no duplicates, and the root has no parent.
Child depth strictly exceeds parent depth but may exceed it by more than
one, and orphaned nodes may be disconnected from the root. -/
theorem c7_parsed_tree_structure (lines : List Name) :
    TreeWF (parse_phylo_tree lines).1 ∧
    (∀ i j c, i < (parse_phylo_tree lines).1.nodes.length →
      j < (parse_phylo_tree lines).1.nodes.length →
      c ∈ childrenOf (parse_phylo_tree lines).1 i →
      c ∈ childrenOf (parse_phylo_tree lines).1 j → i = j) ∧
    (∀ r, (parse_phylo_tree lines).2 = some r →
      parentOf (parse_phylo_tree lines).1 r = none) := by
  have h := parse_wf lines
  exact ⟨h.1, child_unique_parent _ h.1, fun r hr => (h.2.2 r hr).2.1⟩

theorem c7_witness :
    2 < 3 ∧ depthOf exST1 2 < depthOf exST1 3 :=
  (c7_parsed_tree_structure exL1).1.1 3 (by decide) 2 (by decide)

theorem linsert_ne_nil [DecidableEq α] (x : α) (l : List α) : linsert x l ≠ [] := by
  unfold linsert
  by_cases hx : x ∈ l
  · rw [if_pos hx]
    intro hnil
    rw [hnil] at hx
    simp at hx
  · rw [if_neg hx]
    simp

theorem bucketAdd_keys_sub (ret : List (Nat × List Name)) (k : Nat) (real : Name) :
    ∀ kb ∈ bucketAdd ret k real, kb.1 ∈ ret.map Prod.fst ∨ kb.1 = k := by
  induction ret with
  | nil =>
      intro kb hkb
      simp only [bucketAdd, List.mem_singleton] at hkb
      subst hkb
      exact Or.inr rfl
  | cons hd rest ih =>
      intro kb hkb
      unfold bucketAdd at hkb
      by_cases hk : hd.1 = k
      · rw [if_pos hk] at hkb
        rcases List.mem_cons.mp hkb with rfl | h2
        · exact Or.inl (by simp)
        · refine Or.inl ?_
          rw [List.map_cons, List.mem_cons]
          exact Or.inr (List.mem_map.mpr ⟨kb, h2, rfl⟩)
      · rw [if_neg hk] at hkb
        rcases List.mem_cons.mp hkb with heq | h2
        · refine Or.inl ?_
          rw [heq]
          simp
        · rcases ih kb h2 with h | h
          · refine Or.inl ?_
            rw [List.map_cons, List.mem_cons]
            exact Or.inr h
          · exact Or.inr h

theorem bucketAdd_pairwise_keys (ret : List (Nat × List Name)) (k : Nat) (real : Name)
    (h : ret.Pairwise (fun a b => a.1 ≠ b.1)) :
    (bucketAdd ret k real).Pairwise (fun a b => a.1 ≠ b.1) := by
  induction ret with
  | nil => simp [bucketAdd]
  | cons hd rest ih =>
      rw [List.pairwise_cons] at h
      obtain ⟨hhd, hrest⟩ := h
      unfold bucketAdd
      by_cases hk : hd.1 = k
      · rw [if_pos hk]
        rw [List.pairwise_cons]
        exact ⟨fun b hb => hhd b hb, hrest⟩
      · rw [if_neg hk]
        rw [List.pairwise_cons]
        refine ⟨?_, ih hrest⟩
        intro b hb
        rcases bucketAdd_keys_sub rest k real b hb with hmem | hbk
        · rw [List.mem_map] at hmem
          obtain ⟨e, he, hfst⟩ := hmem
          rw [← hfst]
          exact hhd e he
        · rw [hbk]
          exact hk
  
theorem bucketAdd_labels (ret : List (Nat × List Name)) (k : Nat) (real : Name) (l : Name) :
    (∃ kb ∈ bucketAdd ret k real, l ∈ kb.2) ↔ (∃ kb ∈ ret, l ∈ kb.2) ∨ l = real := by
  induction ret with
  | nil =>
      simp only [bucketAdd, List.mem_singleton]
      constructor
      · rintro ⟨kb, rfl, hl⟩
        rw [List.mem_singleton] at hl
        exact Or.inr hl
      · rintro (⟨kb, hkb, _⟩ | rfl)
        · simp at hkb
        · exact ⟨(k, [l]), rfl, List.mem_singleton_self l⟩
  | cons hd rest ih =>
      unfold bucketAdd
      by_cases hk : hd.1 = k
      · rw [if_pos hk]
        constructor
        · rintro ⟨kb, hkb, hl⟩
          rcases List.mem_cons.mp hkb with rfl | h2
          · rcases (mem_linsert real l hd.2).mp hl with rfl | hmem
            · exact Or.inr rfl
            · exact Or.inl ⟨hd, List.mem_cons_self _ _, hmem⟩
          · exact Or.inl ⟨kb, List.mem_cons_of_mem _ h2, hl⟩
        · rintro (⟨kb, hkb, hl⟩ | rfl)
          · rcases List.mem_cons.mp hkb with heq | h2
            · exact ⟨(hd.1, linsert real hd.2), List.mem_cons_self _ _,
                (mem_linsert real l hd.2).mpr (Or.inr (by rw [heq] at hl; exact hl))⟩
            · exact ⟨kb, List.mem_cons_of_mem _ h2, hl⟩
          · exact ⟨(hd.1, linsert l hd.2), List.mem_cons_self _ _,
              (mem_linsert l l hd.2).mpr (Or.inl rfl)⟩
      · rw [if_neg hk]
        constructor
        · rintro ⟨kb, hkb, hl⟩
          rcases List.mem_cons.mp hkb with heq | h2
          · exact Or.inl ⟨hd, List.mem_cons_self _ _, by rw [heq] at hl; exact hl⟩
          · rcases ih.mp ⟨kb, h2, hl⟩ with ⟨kb2, hkb2, hl2⟩ | hr
            · exact Or.inl ⟨kb2, List.mem_cons_of_mem _ hkb2, hl2⟩
            · exact Or.inr hr
        · rintro (⟨kb, hkb, hl⟩ | rfl)
          · rcases List.mem_cons.mp hkb with heq | h2
            · exact ⟨hd, List.mem_cons_self _ _, by rw [heq] at hl; exact hl⟩
            · obtain ⟨kb2, hkb2, hl2⟩ := ih.mpr (Or.inl ⟨kb, h2, hl⟩)
              exact ⟨kb2, List.mem_cons_of_mem _ hkb2, hl2⟩
          · obtain ⟨kb2, hkb2, hl2⟩ := ih.mpr (Or.inr rfl)
            exact ⟨kb2, List.mem_cons_of_mem _ hkb2, hl2⟩

theorem bucketAdd_coherent (st : PhyloState) (guess : Name)
    (ret : List (Nat × List Name)) (k : Nat) (real : Name)
    (h : ∀ kb ∈ ret, ∀ l ∈ kb.2, lca_species st [guess, l] = some kb.1)
    (hreal : lca_species st [guess, real] = some k) :
    ∀ kb ∈ bucketAdd ret k real, ∀ l ∈ kb.2, lca_species st [guess, l] = some kb.1 := by
  induction ret with
  | nil =>
      intro kb hkb l hl
      simp only [bucketAdd, List.mem_singleton] at hkb
      subst hkb
      rw [List.mem_singleton] at hl
      subst hl
      exact hreal
  | cons hd rest ih =>
      intro kb hkb l hl
      unfold bucketAdd at hkb
      by_cases hk : hd.1 = k
      · rw [if_pos hk] at hkb
        rcases List.mem_cons.mp hkb with rfl | h2
        · rcases (mem_linsert real l hd.2).mp hl with rfl | hmem
          · rw [hreal, hk]
          · exact h hd (List.mem_cons_self _ _) l hmem
        · exact h kb (List.mem_cons_of_mem _ h2) l hl
      · rw [if_neg hk] at hkb
        rcases List.mem_cons.mp hkb with heq | h2
        · rw [heq]
          exact h hd (List.mem_cons_self _ _) l (by rw [heq] at hl; exact hl)
        · exact ih (fun kb2 hkb2 => h kb2 (List.mem_cons_of_mem _ hkb2)) kb h2 l hl

theorem bucketAdd_nodup_nonempty (ret : List (Nat × List Name)) (k : Nat) (real : Name)
    (h : ∀ kb ∈ ret, kb.2.Nodup ∧ kb.2 ≠ []) :
    ∀ kb ∈ bucketAdd ret k real, kb.2.Nodup ∧ kb.2 ≠ [] := by
  induction ret with
  | nil =>
      intro kb hkb
      simp only [bucketAdd, List.mem_singleton] at hkb
      subst hkb
      exact ⟨List.nodup_singleton _, by simp⟩
  | cons hd rest ih =>
      intro kb hkb
      unfold bucketAdd at hkb
      by_cases hk : hd.1 = k
      · rw [if_pos hk] at hkb
        rcases List.mem_cons.mp hkb with rfl | h2
        · exact ⟨nodup_linsert real hd.2 (h hd (List.mem_cons_self _ _)).1,
            linsert_ne_nil real hd.2⟩
        · exact h kb (List.mem_cons_of_mem _ h2)
      · rw [if_neg hk] at hkb
        rcases List.mem_cons.mp hkb with heq | h2
        · rw [heq]
          exact h hd (List.mem_cons_self _ _)
        · exact ih (fun kb2 hkb2 => h kb2 (List.mem_cons_of_mem _ hkb2)) kb h2

theorem except_bind_ok {ε α β : Type} (a : α) (f : α → Except ε β) :
    (Except.ok a >>= f) = f a := rfl

theorem except_bind_error {ε α β : Type} (e : ε) (f : α → Except ε β) :
    ((Except.error e : Except ε α) >>= f) = Except.error e := rfl

theorem gs_fold (st : PhyloState) (guess : Name) :
    ∀ (poss : List Name) (ret₀ : List (Nat × List Name)),
    (∀ kb ∈ ret₀, ∀ l ∈ kb.2, lca_species st [guess, l] = some kb.1) →
    ret₀.Pairwise (fun a b => a.1 ≠ b.1) →
    (∀ kb ∈ ret₀, kb.2.Nodup ∧ kb.2 ≠ []) →
    (∀ e, poss.foldlM (gsStep st guess) ret₀ = .error e → e = .lcaCrash) ∧
    (∀ ret, poss.foldlM (gsStep st guess) ret₀ = .ok ret →
      (∀ kb ∈ ret, ∀ l ∈ kb.2, lca_species st [guess, l] = some kb.1) ∧
      ret.Pairwise (fun a b => a.1 ≠ b.1) ∧
      (∀ kb ∈ ret, kb.2.Nodup ∧ kb.2 ≠ []) ∧
      (∀ l, (∃ kb ∈ ret, l ∈ kb.2) ↔ (∃ kb ∈ ret₀, l ∈ kb.2) ∨ (l ∈ poss ∧ l ≠ guess))) := by
  intro poss
  induction poss with
  | nil =>
      intro ret₀ h0 h1 h2
      constructor
      · intro e he
        rw [List.foldlM_nil] at he
        exact absurd he (by simp [pure, Except.pure])
      · intro ret hret
        rw [List.foldlM_nil] at hret
        have hret2 : Except.ok ret₀ = Except.ok ret := hret
        obtain rfl : ret₀ = ret := Except.ok.inj hret2
        refine ⟨h0, h1, h2, ?_⟩
        intro l
        simp
  | cons real rest ih =>
      intro ret₀ h0 h1 h2
      by_cases hg : real = guess
      · have hstep : gsStep st guess ret₀ real = Except.ok ret₀ := by
          unfold gsStep
          rw [if_pos hg]
        constructor
        · intro e he
          rw [List.foldlM_cons, hstep, except_bind_ok] at he
          exact (ih ret₀ h0 h1 h2).1 e he
        · intro ret hret
          rw [List.foldlM_cons, hstep, except_bind_ok] at hret
          obtain ⟨g0, g1, g2, g3⟩ := (ih ret₀ h0 h1 h2).2 ret hret
          refine ⟨g0, g1, g2, ?_⟩
          intro l
          rw [g3 l]
          subst hg
          constructor
          · rintro (h | ⟨hmem, hne⟩)
            · exact Or.inl h
            · exact Or.inr ⟨List.mem_cons_of_mem _ hmem, hne⟩
          · rintro (h | ⟨hmem, hne⟩)
            · exact Or.inl h
            · rcases List.mem_cons.mp hmem with rfl | hmem2
              · exact absurd rfl hne
              · exact Or.inr ⟨hmem2, hne⟩
      · cases hlca : lca_species st [guess, real] with
        | none =>
            have hstep : gsStep st guess ret₀ real = Except.error Err.lcaCrash := by
              unfold gsStep
              rw [if_neg hg, hlca]
            constructor
            · intro e he
              rw [List.foldlM_cons, hstep, except_bind_error] at he
              exact (Except.error.inj he).symm
            · intro ret hret
              rw [List.foldlM_cons, hstep, except_bind_error] at hret
              exact absurd hret (by simp)
        | some k =>
            have hstep : gsStep st guess ret₀ real = Except.ok (bucketAdd ret₀ k real) := by
              unfold gsStep
              rw [if_neg hg, hlca]
            have b0 := bucketAdd_coherent st guess ret₀ k real h0 hlca
            have b1 := bucketAdd_pairwise_keys ret₀ k real h1
            have b2 := bucketAdd_nodup_nonempty ret₀ k real h2
            constructor
            · intro e he
              rw [List.foldlM_cons, hstep, except_bind_ok] at he
              exact (ih _ b0 b1 b2).1 e he
            · intro ret hret
              rw [List.foldlM_cons, hstep, except_bind_ok] at hret
              obtain ⟨g0, g1, g2, g3⟩ := (ih _ b0 b1 b2).2 ret hret
              refine ⟨g0, g1, g2, ?_⟩
              intro l
              rw [g3 l, bucketAdd_labels]
              constructor
              · rintro ((h | rfl) | ⟨hmem, hne⟩)
                · exact Or.inl h
                · exact Or.inr ⟨List.mem_cons_self _ _, hg⟩
                · exact Or.inr ⟨List.mem_cons_of_mem _ hmem, hne⟩
              · rintro (h | ⟨hmem, hne⟩)
                · exact Or.inl (Or.inl h)
                · rcases List.mem_cons.mp hmem with rfl | hmem2
                  · exact Or.inl (Or.inr rfl)
                  · exact Or.inr ⟨hmem2, hne⟩

/-- Characterization of a successful get_successors call: buckets are
keyed coherently by the LCA of guess and member, keys are pairwise
distinct, every bucket is a duplicate-free non-empty set, and the union of
the buckets is exactly the candidate set minus the guess. -/
theorem get_successors_ok (st : PhyloState) (poss : List Name) (guess : Name)
    (ret : List (Nat × List Name)) (h : get_successors st poss guess = .ok ret) :
    (∀ kb ∈ ret, ∀ l ∈ kb.2, lca_species st [guess, l] = some kb.1) ∧
    ret.Pairwise (fun a b => a.1 ≠ b.1) ∧
    (∀ kb ∈ ret, kb.2.Nodup ∧ kb.2 ≠ []) ∧
    (∀ l, (∃ kb ∈ ret, l ∈ kb.2) ↔ (l ∈ poss ∧ l ≠ guess)) := by
  have hg := (gs_fold st guess poss [] (by simp) (by simp) (by simp)).2 ret h
  obtain ⟨g0, g1, g2, g3⟩ := hg
  refine ⟨g0, g1, g2, ?_⟩
  intro l
  rw [g3 l]
  simp

theorem get_successors_error (st : PhyloState) (poss : List Name) (guess : Name)
    (e : Err) (h : get_successors st poss guess = .error e) : e = .lcaCrash :=
  (gs_fold st guess poss [] (by simp) (by simp) (by simp)).1 e h

/-- Distinct buckets cannot share a label: each label determines its
bucket key through the LCA with the guess. -/
theorem get_successors_disjoint (st : PhyloState) (poss : List Name) (guess : Name)
    (ret : List (Nat × List Name)) (h : get_successors st poss guess = .ok ret) :
    ret.Pairwise (fun a b => ∀ l, l ∈ a.2 → l ∉ b.2) := by
  obtain ⟨g0, g1, _, _⟩ := get_successors_ok st poss guess ret h
  refine List.Pairwise.imp_of_mem ?_ g1
  intro a b ha hb hne l hla hlb
  have e1 := g0 a ha l hla
  have e2 := g0 b hb l hlb
  rw [e1] at e2
  exact hne (Option.some.inj e2)

theorem odtGo_zero (st : PhyloState) (order : List Name) (node : Nat) (poss : List Name) :
    odtGo st order 0 node poss = .error .fuelOut := rfl

theorem odtGo_succ_eq (st : PhyloState) (order : List Name) (f : Nat) (node : Nat)
    (poss : List Name) :
    odtGo st order (f + 1) node poss =
      match order.find? (fun s => s ∈ poss) with
      | none => Except.error Err.assertFail
      | some guess =>
          match get_successors st poss guess with
          | Except.error e => Except.error e
          | Except.ok succ =>
              (succ.mapM (fun kb => odtGo st order f kb.1 kb.2)) >>=
                (fun brs => Except.ok (DTree.mk node guess brs)) := rfl

theorem odtGo_succ_noguess (st : PhyloState) (order : List Name) (f : Nat) (node : Nat)
    (poss : List Name) (h : order.find? (fun s => s ∈ poss) = none) :
    odtGo st order (f + 1) node poss = .error .assertFail := by
  rw [odtGo_succ_eq, h]

theorem odtGo_succ_gserr (st : PhyloState) (order : List Name) (f : Nat) (node : Nat)
    (poss : List Name) (guess : Name) (e : Err)
    (hf : order.find? (fun s => s ∈ poss) = some guess)
    (hgs : get_successors st poss guess = .error e) :
    odtGo st order (f + 1) node poss = .error e := by
  rw [odtGo_succ_eq, hf]
  dsimp only
  rw [hgs]

theorem odtGo_succ_guess (st : PhyloState) (order : List Name) (f : Nat) (node : Nat)
    (poss : List Name) (guess : Name) (succ : List (Nat × List Name))
    (hf : order.find? (fun s => s ∈ poss) = some guess)
    (hgs : get_successors st poss guess = .ok succ) :
    odtGo st order (f + 1) node poss =
      (succ.mapM (fun kb => odtGo st order f kb.1 kb.2)) >>=
        (fun brs => Except.ok (DTree.mk node guess brs)) := by
  rw [odtGo_succ_eq, hf]
  dsimp only
  rw [hgs]

theorem mapM_except_forall2 {α β : Type} (f : α → Except Err β) :
    ∀ (l : List α) (bs : List β), l.mapM f = .ok bs →
      List.Forall₂ (fun a b => f a = .ok b) l bs := by
  intro l
  induction l with
  | nil =>
      intro bs h
      rw [List.mapM_nil] at h
      have h2 : Except.ok ([] : List β) = Except.ok bs := h
      obtain rfl : ([] : List β) = bs := Except.ok.inj h2
      exact List.Forall₂.nil
  | cons a rest ih =>
      intro bs h
      rw [List.mapM_cons] at h
      cases hfa : f a with
      | error e =>
          rw [hfa, except_bind_error] at h
          exact absurd h (by simp)
      | ok b =>
          rw [hfa, except_bind_ok] at h
          cases hrest : rest.mapM f with
          | error e =>
              rw [hrest, except_bind_error] at h
              exact absurd h (by simp)
          | ok bs2 =>
              rw [hrest, except_bind_ok] at h
              have h2 : Except.ok (b :: bs2) = Except.ok bs := h
              obtain rfl : b :: bs2 = bs := Except.ok.inj h2
              exact List.Forall₂.cons hfa (ih bs2 hrest)

theorem mapM_except_cases {α β : Type} (f : α → Except Err β) :
    ∀ (l : List α), (∀ a ∈ l, f a = .error .lcaCrash ∨ ∃ b, f a = .ok b) →
      l.mapM f = .error .lcaCrash ∨ ∃ bs, l.mapM f = .ok bs := by
  intro l
  induction l with
  | nil =>
      intro _
      exact Or.inr ⟨[], by rw [List.mapM_nil]; rfl⟩
  | cons a rest ih =>
      intro h
      rcases h a (List.mem_cons_self _ _) with herr | ⟨b, hok⟩
      · left
        rw [List.mapM_cons, herr, except_bind_error]
      · rcases ih (fun a2 ha2 => h a2 (List.mem_cons_of_mem _ ha2)) with herr | ⟨bs, hbs⟩
        · left
          rw [List.mapM_cons, hok, except_bind_ok, herr, except_bind_error]
        · right
          exact ⟨b :: bs, by rw [List.mapM_cons, hok, except_bind_ok, hbs, except_bind_ok]; rfl⟩

theorem forall2_mem_right {α β : Type} {R : α → β → Prop} :
    ∀ {l₁ : List α} {l₂ : List β}, List.Forall₂ R l₁ l₂ → ∀ b ∈ l₂, ∃ a ∈ l₁, R a b := by
  intro l₁ l₂ h
  induction h with
  | nil =>
      intro b hb
      simp at hb
  | cons hr hrest ih =>
      intro b hb
      rcases List.mem_cons.mp hb with rfl | hb2
      · exact ⟨_, List.mem_cons_self _ _, hr⟩
      · obtain ⟨a, ha, har⟩ := ih b hb2
        exact ⟨a, List.mem_cons_of_mem _ ha, har⟩

theorem forall2_mem_left {α β : Type} {R : α → β → Prop} :
    ∀ {l₁ : List α} {l₂ : List β}, List.Forall₂ R l₁ l₂ → ∀ a ∈ l₁, ∃ b ∈ l₂, R a b := by
  intro l₁ l₂ h
  induction h with
  | nil =>
      intro a ha
      simp at ha
  | cons hr hrest ih =>
      intro a ha
      rcases List.mem_cons.mp ha with rfl | ha2
      · exact ⟨_, List.mem_cons_self _ _, hr⟩
      · obtain ⟨b, hb, hbr⟩ := ih a ha2
        exact ⟨b, List.mem_cons_of_mem _ hb, hbr⟩

theorem forall2_pairwise {α β : Type} {R : α → β → Prop} {P : α → α → Prop} {Q : β → β → Prop} :
    ∀ {l₁ : List α} {l₂ : List β}, List.Forall₂ R l₁ l₂ → l₁.Pairwise P →
      (∀ a₁ b₁, R a₁ b₁ → ∀ a₂ b₂, R a₂ b₂ → P a₁ a₂ → Q b₁ b₂) → l₂.Pairwise Q := by
  intro l₁ l₂ h
  induction h with
  | nil =>
      intro _ _
      exact List.Pairwise.nil
  | cons hr hrest ih =>
      intro hp himp
      rw [List.pairwise_cons] at hp
      obtain ⟨ha, hp2⟩ := hp
      rw [List.pairwise_cons]
      refine ⟨?_, ih hp2 himp⟩
      intro b hb
      obtain ⟨a2, ha2, hr2⟩ := forall2_mem_right hrest b hb
      exact himp _ _ hr a2 b hr2 (ha a2 ha2)

theorem nodup_subset_length {α : Type} [DecidableEq α] (l₁ l₂ : List α)
    (h1 : l₁.Nodup) (hs : l₁ ⊆ l₂) (h2 : l₂.Nodup) : l₁.length ≤ l₂.length := by
  rw [← List.toFinset_card_of_nodup h1, ← List.toFinset_card_of_nodup h2]
  refine Finset.card_le_card ?_
  intro x hx
  rw [List.mem_toFinset] at hx ⊢
  exact hs hx

theorem odtGo_labels (st : PhyloState) (order : List Name) :
    ∀ (f : Nat) (node : Nat) (poss : List Name) (t : DTree),
      odtGo st order f node poss = .ok t →
      (∀ l, l ∈ treeLabels f t ↔ l ∈ poss) ∧ siblingsDisjoint f t := by
  intro f
  induction f with
  | zero =>
      intro node poss t h
      rw [odtGo_zero] at h
      exact absurd h (by simp)
  | succ f ih =>
      intro node poss t h
      cases hfind : order.find? (fun s => s ∈ poss) with
      | none =>
          rw [odtGo_succ_noguess st order f node poss hfind] at h
          exact absurd h (by simp)
      | some guess =>
          cases hgs : get_successors st poss guess with
          | error e =>
              rw [odtGo_succ_gserr st order f node poss guess e hfind hgs] at h
              exact absurd h (by simp)
          | ok succ =>
              rw [odtGo_succ_guess st order f node poss guess succ hfind hgs] at h
              cases hmap : succ.mapM (fun kb => odtGo st order f kb.1 kb.2) with
              | error e =>
                  rw [hmap, except_bind_error] at h
                  exact absurd h (by simp)
              | ok brs =>
                  rw [hmap, except_bind_ok] at h
                  have h2 : Except.ok (DTree.mk node guess brs) = Except.ok t := h
                  obtain rfl : DTree.mk node guess brs = t := Except.ok.inj h2
                  have hf2 := mapM_except_forall2 _ succ brs hmap
                  have hguess : guess ∈ poss := by
                    have := List.find?_some hfind
                    simpa using this
                  obtain ⟨g0, g1, g2, g3⟩ := get_successors_ok st poss guess succ hgs
                  constructor
                  · intro l
                    rw [show treeLabels (f + 1) (DTree.mk node guess brs) =
                      guess :: (brs.map (treeLabels f)).flatten from rfl]
                    rw [List.mem_cons, List.mem_flatten]
                    constructor
                    · rintro (rfl | ⟨ls, hls, hl⟩)
                      · exact hguess
                      · rw [List.mem_map] at hls
                        obtain ⟨t2, ht2, rfl⟩ := hls
                        obtain ⟨kb, hkb, hok⟩ := forall2_mem_right hf2 t2 ht2
                        have hmem := ((ih kb.1 kb.2 t2 hok).1 l).mp hl
                        exact ((g3 l).mp ⟨kb, hkb, hmem⟩).1
                    · intro hl
                      by_cases hlg : l = guess
                      · exact Or.inl hlg
                      · obtain ⟨kb, hkb, hmem⟩ := (g3 l).mpr ⟨hl, hlg⟩
                        obtain ⟨t2, ht2, hok⟩ := forall2_mem_left hf2 kb hkb
                        refine Or.inr ⟨treeLabels f t2, List.mem_map.mpr ⟨t2, ht2, rfl⟩, ?_⟩
                        exact ((ih kb.1 kb.2 t2 hok).1 l).mpr hmem
                  · rw [show siblingsDisjoint (f + 1) (DTree.mk node guess brs) =
                      ((brs.map (treeLabels f)).Pairwise (fun l₁ l₂ => ∀ x, x ∈ l₁ → x ∉ l₂) ∧
                       ∀ sub ∈ brs, siblingsDisjoint f sub) from rfl]
                    constructor
                    · rw [List.pairwise_map]
                      have hdisj := get_successors_disjoint st poss guess succ hgs
                      refine forall2_pairwise hf2 hdisj ?_
                      intro a₁ b₁ h₁ a₂ b₂ h₂ hP x hx1 hx2
                      exact hP x (((ih a₁.1 a₁.2 b₁ h₁).1 x).mp hx1)
                        (((ih a₂.1 a₂.2 b₂ h₂).1 x).mp hx2)
                    · intro sub hsub
                      obtain ⟨kb, hkb, hok⟩ := forall2_mem_right hf2 sub hsub
                      exact (ih kb.1 kb.2 sub hok).2

theorem odtGo_no_fail (st : PhyloState) (order : List Name) :
    ∀ (f : Nat) (poss : List Name) (node : Nat), poss ≠ [] → (∀ l ∈ poss, l ∈ order) →
      poss.dedup.length < f →
      odtGo st order f node poss = .error .lcaCrash ∨
      ∃ t, odtGo st order f node poss = .ok t := by
  intro f
  induction f with
  | zero =>
      intro poss node h1 h2 h3
      exact absurd h3 (by omega)
  | succ f ih =>
      intro poss node hne hsub hlen
      have hfind : ∃ g, order.find? (fun s => s ∈ poss) = some g := by
        obtain ⟨l0, hl0⟩ := List.exists_mem_of_ne_nil poss hne
        have hs : (order.find? (fun s => s ∈ poss)).isSome :=
          List.find?_isSome.mpr ⟨l0, hsub l0 hl0, by simpa using hl0⟩
        exact Option.isSome_iff_exists.mp hs
      obtain ⟨guess, hfind⟩ := hfind
      have hguess : guess ∈ poss := by
        have := List.find?_some hfind
        simpa using this
      cases hgs : get_successors st poss guess with
      | error e =>
          obtain rfl : e = Err.lcaCrash := get_successors_error st poss guess e hgs
          left
          exact odtGo_succ_gserr st order f node poss guess _ hfind hgs
      | ok succ =>
          obtain ⟨g0, g1, g2, g3⟩ := get_successors_ok st poss guess succ hgs
          have hbuckets : ∀ kb ∈ succ,
              odtGo st order f kb.1 kb.2 = .error .lcaCrash ∨
              ∃ t, odtGo st order f kb.1 kb.2 = .ok t := by
            intro kb hkb
            refine ih kb.2 kb.1 (g2 kb hkb).2 ?_ ?_
            · intro l hl
              exact hsub l ((g3 l).mp ⟨kb, hkb, hl⟩).1
            · have hnd := (g2 kb hkb).1
              rw [List.dedup_eq_self.mpr hnd]
              have hgnotin : guess ∉ kb.2 := fun hmem =>
                ((g3 guess).mp ⟨kb, hkb, hmem⟩).2 rfl
              have hsub2 : (guess :: kb.2) ⊆ poss.dedup := by
                intro x hx
                rw [List.mem_dedup]
                rcases List.mem_cons.mp hx with rfl | hx2
                · exact hguess
                · exact ((g3 x).mp ⟨kb, hkb, hx2⟩).1
              have hle := nodup_subset_length (guess :: kb.2) poss.dedup
                (List.nodup_cons.mpr ⟨hgnotin, hnd⟩) hsub2 (List.nodup_dedup poss)
              rw [List.length_cons] at hle
              omega
          rcases mapM_except_cases _ succ hbuckets with herr | ⟨brs, hok⟩
          · left
            rw [odtGo_succ_guess st order f node poss guess succ hfind hgs, herr,
              except_bind_error]
          · right
            refine ⟨DTree.mk node guess brs, ?_⟩
            rw [odtGo_succ_guess st order f node poss guess succ hfind hgs, hok,
              except_bind_ok]

/-- C1: for every synthesize call, the buckets that get_successors returns
are pairwise disjoint, none contains the guess, and their union is exactly
the candidate set minus the guess; consequently, over a whole
order_to_decision_tree run, the labels of the decision tree are exactly
the original candidate set, and no label occurs in two sibling branches
anywhere in the tree. -/
theorem c1_successor_buckets_partition (st : PhyloState) (poss : List Name) (guess : Name)
    (ret : List (Nat × List Name)) (node : Nat) (order : List Name) (t : DTree)
    (hgs : get_successors st poss guess = .ok ret)
    (hodt : order_to_decision_tree st node poss order = .ok t) :
    (∀ kb ∈ ret, guess ∉ kb.2) ∧
    (∀ l, (∃ kb ∈ ret, l ∈ kb.2) ↔ (l ∈ poss ∧ l ≠ guess)) ∧
    ret.Pairwise (fun a b => ∀ l, l ∈ a.2 → l ∉ b.2) ∧
    (∀ l, l ∈ treeLabels (poss.length + 1) t ↔ l ∈ poss) ∧
    siblingsDisjoint (poss.length + 1) t := by
  obtain ⟨g0, g1, g2, g3⟩ := get_successors_ok st poss guess ret hgs
  have hodt2 : odtGo st order (poss.length + 1) node poss = .ok t := hodt
  obtain ⟨hlab, hsib⟩ := odtGo_labels st order (poss.length + 1) node poss t hodt2
  refine ⟨?_, g3, get_successors_disjoint st poss guess ret hgs, hlab, hsib⟩
  intro kb hkb hguess
  exact ((g3 guess).mp ⟨kb, hkb, hguess⟩).2 rfl

theorem c1_witness :
    ("a".toList ∈ treeLabels ((leavesOf exST4 0).length + 1) exD4 ↔
      "a".toList ∈ leavesOf exST4 0) ∧
    siblingsDisjoint ((leavesOf exST4 0).length + 1) exD4 := by
  have h := c1_successor_buckets_partition exST4 (leavesOf exST4 0) ("a".toList)
    [(1, ["g".toList]), (0, ["b".toList])] 0 exOrd4 exD4 (by rfl) (by rfl)
  exact ⟨h.2.2.2.1 ("a".toList), h.2.2.2.2⟩

/-- C8: calling order_to_decision_tree with an empty candidate set always
fails the guess-selection assertion (it never returns a tree); and when
the candidate set is non-empty and every candidate occurs in the global
order, the assertion never fires at any level of the recursion (the run
either succeeds or dies earlier inside an LCA computation, which the
preconditions of the claim do not rule out). -/
theorem c8_empty_candidates_assert (st : PhyloState) (node : Nat) (order poss : List Name) :
    order_to_decision_tree st node [] order = .error .assertFail ∧
    (poss ≠ [] → (∀ l ∈ poss, l ∈ order) →
      order_to_decision_tree st node poss order ≠ .error .assertFail ∧
      order_to_decision_tree st node poss order ≠ .error .fuelOut) := by
  constructor
  · show odtGo st order 1 node [] = _
    apply odtGo_succ_noguess
    rw [List.find?_eq_none]
    intro x hx
    simp
  · intro hne hsub
    have hlen : poss.dedup.length < poss.length + 1 := by
      have := (List.dedup_sublist poss).length_le
      omega
    have heq : order_to_decision_tree st node poss order =
        odtGo st order (poss.length + 1) node poss := rfl
    rcases odtGo_no_fail st order (poss.length + 1) poss node hne hsub hlen with
      herr | ⟨t, hok⟩
    · rw [heq, herr]
      exact ⟨by simp, by simp⟩
    · rw [heq, hok]
      exact ⟨by simp, by simp⟩

theorem c8_witness :
    order_to_decision_tree exST4 0 [] exOrd4 = .error .assertFail ∧
    order_to_decision_tree exST4 0 (leavesOf exST4 0) exOrd4 ≠ .error .assertFail := by
  have h := c8_empty_candidates_assert exST4 0 exOrd4 (leavesOf exST4 0)
  exact ⟨h.1, (h.2 (by decide) (by decide)).1⟩

theorem insertB_perm (le : α → α → Bool) (x : α) (l : List α) :
    (insertB le x l).Perm (x :: l) := by
  induction l with
  | nil => simp [insertB]
  | cons y ys ih =>
      unfold insertB
      by_cases h : le x y
      · rw [if_pos h]
      · rw [if_neg h]
        exact (List.Perm.cons y ih).trans (List.Perm.swap x y ys)

theorem insSort_perm (le : α → α → Bool) (l : List α) : (insSort le l).Perm l := by
  induction l with
  | nil => simp [insSort]
  | cons x xs ih =>
      unfold insSort
      exact (insertB_perm le x (insSort le xs)).trans (List.Perm.cons x ih)

theorem insertB_pairwise (le : α → α → Bool)
    (htrans : ∀ a b c, le a b = true → le b c = true → le a c = true)
    (htot : ∀ a b, le a b = true ∨ le b a = true)
    (x : α) (l : List α) (h : l.Pairwise (fun a b => le a b = true)) :
    (insertB le x l).Pairwise (fun a b => le a b = true) := by
  induction l with
  | nil => simp [insertB]
  | cons y ys ih =>
      rw [List.pairwise_cons] at h
      obtain ⟨hy, hys⟩ := h
      unfold insertB
      by_cases hxy : le x y
      · rw [if_pos hxy]
        rw [List.pairwise_cons]
        refine ⟨?_, List.pairwise_cons.mpr ⟨hy, hys⟩⟩
        intro b hb
        rcases List.mem_cons.mp hb with rfl | hb2
        · exact hxy
        · exact htrans x y b hxy (hy b hb2)
      · rw [if_neg hxy]
        rw [List.pairwise_cons]
        refine ⟨?_, ih hys⟩
        intro b hb
        rcases List.mem_cons.mp ((insertB_perm le x ys).mem_iff.mp hb) with hbx | hb2
        · rcases htot x y with hl | hr
          · exact absurd hl hxy
          · rw [hbx]
            exact hr
        · exact hy b hb2

theorem insSort_pairwise (le : α → α → Bool)
    (htrans : ∀ a b c, le a b = true → le b c = true → le a c = true)
    (htot : ∀ a b, le a b = true ∨ le b a = true)
    (l : List α) : (insSort le l).Pairwise (fun a b => le a b = true) := by
  induction l with
  | nil => simp [insSort]
  | cons x xs ih =>
      unfold insSort
      exact insertB_pairwise le htrans htot x (insSort le xs) ih

theorem sortDT_subject (st : PhyloState) (f : Nat) (t : DTree) :
    (sortDT st f t).subject = t.subject := by
  cases f with
  | zero => rfl
  | succ f => cases t with | mk n g subs => rfl

/-- C10: reporting is not read-only on the decision tree: in the example
pipeline the synthesized root has branches with subjects [X, R] (in bucket
creation order) while the reporter's in-place sort by subject depth
reorders them to [R, X], so the branches sequence of the returned
DecisionNode is modified during reporting (sortDT models the tree as it
stands after print_decision_tree has sorted every visited branches list).
The reporter does run to completion on this tree. -/
theorem c10_counterexample :
    order_to_decision_tree exST4 0 (leavesOf exST4 0) exOrd4 = Except.ok exD4 ∧
    (exD4.subs.map DTree.subject = [1, 0]) ∧
    ((sortDT exST4 9 exD4).subs.map DTree.subject = [0, 1]) ∧
    (reportStats exST4 0 9 exD4 []).isOk = true ∧
    sortDT exST4 9 exD4 ≠ exD4 := by
  refine ⟨rfl, by decide, by decide, by decide, ?_⟩
  intro h
  exact absurd (congrArg (fun t => t.subs.map DTree.subject) h) (by decide)

/-- C10 (amended): the reporter's in-place subs.sort keeps the subject,
the guess, and the multiset of branches of every DecisionNode unchanged,
but reorders each branches list into ascending subject depth; nothing else
about the node is modified. -/
theorem c10_reporter_sorts_branches (st : PhyloState) (f : Nat) (n : Nat) (g : Name)
    (subs : List DTree) :
    (sortDT st (f + 1) (DTree.mk n g subs)).subject = n ∧
    (sortDT st (f + 1) (DTree.mk n g subs)).guess = g ∧
    ((sortDT st (f + 1) (DTree.mk n g subs)).subs).Perm (subs.map (sortDT st f)) ∧
    ((sortDT st (f + 1) (DTree.mk n g subs)).subs).Pairwise
      (fun a b => depthOf st a.subject ≤ depthOf st b.subject) := by
  have hset : (sortDT st (f + 1) (DTree.mk n g subs)).subs =
      (sortByDepth st subs).map (sortDT st f) := rfl
  refine ⟨rfl, rfl, ?_, ?_⟩
  · rw [hset]
    exact List.Perm.map _ (insSort_perm _ subs)
  · rw [hset]
    rw [List.pairwise_map]
    have hp := insSort_pairwise
      (fun x y => decide (depthOf st x.subject ≤ depthOf st y.subject))
      (fun a b c hab hbc => by
        rw [decide_eq_true_iff] at hab hbc ⊢
        omega)
      (fun a b => by
        rw [decide_eq_true_iff, decide_eq_true_iff]
        omega)
      subs
    refine hp.imp ?_
    intro a b hab
    rw [decide_eq_true_iff] at hab
    rw [sortDT_subject, sortDT_subject]
    exact hab

theorem c10_witness :
    (sortDT exST4 9 (DTree.mk 0 ("a".toList) (DTree.subs exD4))).subs.Perm
      ((DTree.subs exD4).map (sortDT exST4 8)) :=
  (c10_reporter_sorts_branches exST4 8 0 ("a".toList) (DTree.subs exD4)).2.2.1

theorem reportStats_succ_eq (st : PhyloState) (root : Nat) (f : Nat) (node : Nat)
    (guess : Name) (subs : List DTree) (guesses : List Name) :
    reportStats st root (f + 1) (DTree.mk node guess subs) guesses =
      (rsChildren (fun sub => reportStats st root f sub (lunion guesses [guess]))
          (sortByDepth st subs) (1, 1, [guess])) >>= fun acc =>
        (checkPlacement st root guesses node acc.2.2) >>= fun _ =>
          if acc.2.2.all (fun spec => spec ∈ leavesOf st node) then Except.ok acc
          else Except.error Err.assertFail := rfl

theorem rsChildren_nodup (rec : DTree → Except Err (Nat × Nat × List Name)) :
    ∀ (l : List DTree) (acc res : Nat × Nat × List Name),
      acc.2.2.Nodup → rsChildren rec l acc = .ok res → res.2.2.Nodup := by
  intro l
  induction l with
  | nil =>
      intro acc res hnd h
      obtain ⟨mx, sm, sp⟩ := acc
      have h2 : Except.ok (mx, sm, sp) = Except.ok res := h
      obtain rfl := Except.ok.inj h2
      exact hnd
  | cons sub rest ih =>
      intro acc res hnd h
      obtain ⟨mx, sm, sp⟩ := acc
      unfold rsChildren at h
      cases hr : rec sub with
      | error e =>
          rw [hr, except_bind_error] at h
          exact absurd h (by simp)
      | ok r =>
          rw [hr, except_bind_ok] at h
          by_cases hint : (sp.inter r.2.2).isEmpty
          · rw [if_pos hint] at h
            exact ih _ res (nodup_lunion sp r.2.2 hnd) h
          · rw [if_neg hint] at h
            exact absurd h (by simp)

theorem reportStats_nodup (st : PhyloState) (root : Nat) :
    ∀ (f : Nat) (t : DTree) (guesses : List Name) (res : Nat × Nat × List Name),
      reportStats st root f t guesses = .ok res → res.2.2.Nodup := by
  intro f
  cases f with
  | zero =>
      intro t guesses res h
      exact absurd h (by simp [reportStats])
  | succ f =>
      intro t guesses res h
      obtain ⟨node, guess, subs⟩ := t
      rw [reportStats_succ_eq] at h
      cases hrc : rsChildren (fun sub => reportStats st root f sub (lunion guesses [guess]))
          (sortByDepth st subs) (1, 1, [guess]) with
      | error e =>
          rw [hrc, except_bind_error] at h
          exact absurd h (by simp)
      | ok acc =>
          rw [hrc, except_bind_ok] at h
          cases hcp : checkPlacement st root guesses node acc.2.2 with
          | error e =>
              rw [hcp, except_bind_error] at h
              exact absurd h (by simp)
          | ok u =>
              rw [hcp, except_bind_ok] at h
              by_cases hall : acc.2.2.all (fun spec => spec ∈ leavesOf st node)
              · rw [if_pos hall] at h
                have h2 : Except.ok acc = Except.ok res := h
                obtain rfl := Except.ok.inj h2
                exact rsChildren_nodup _ _ _ acc (List.nodup_singleton guess) hrc
              · rw [if_neg hall] at h
                exact absurd h (by simp)

theorem inter_isEmpty_disjoint (l₁ l₂ : List Name)
    (h : (l₁.inter l₂).isEmpty = true) : ∀ x ∈ l₂, x ∉ l₁ := by
  intro x hx2 hx1
  rw [List.isEmpty_iff] at h
  have hmem : x ∈ l₁.inter l₂ := by
    unfold List.inter
    rw [List.mem_filter]
    exact ⟨hx1, by simpa using hx2⟩
  rw [h] at hmem
  simp at hmem

theorem rsChildren_ok (rec : DTree → Except Err (Nat × Nat × List Name))
    (hrec : ∀ t r, rec t = .ok r → r.2.2.Nodup) :
    ∀ (l : List DTree) (mx0 sm0 : Nat) (sp0 : List Name) (res : Nat × Nat × List Name),
    sp0.Nodup →
    rsChildren rec l (mx0, sm0, sp0) = .ok res →
    ∃ L, l.mapM rec = .ok L ∧
      res.1 = L.foldl (fun a r => max a (r.1 + 1)) mx0 ∧
      res.2.1 = sm0 + (L.map (fun r => r.2.1 + r.2.2.length)).sum ∧
      res.2.2.length = sp0.length + (L.map (fun r => r.2.2.length)).sum := by
  intro l
  induction l with
  | nil =>
      intro mx0 sm0 sp0 res hnd h
      have h2 : Except.ok ((mx0, sm0, sp0) : Nat × Nat × List Name) = Except.ok res := h
      obtain rfl := Except.ok.inj h2
      exact ⟨[], by rw [List.mapM_nil]; rfl, rfl, by simp, by simp⟩
  | cons sub rest ih =>
      intro mx0 sm0 sp0 res hnd h
      unfold rsChildren at h
      cases hr : rec sub with
      | error e =>
          rw [hr, except_bind_error] at h
          exact absurd h (by simp)
      | ok r =>
          rw [hr, except_bind_ok] at h
          by_cases hint : (sp0.inter r.2.2).isEmpty
          · rw [if_pos hint] at h
            obtain ⟨L, hL, hm, hs, hlen⟩ :=
              ih (max mx0 (r.1 + 1)) (sm0 + r.2.1 + r.2.2.length) (lunion sp0 r.2.2) res
                (nodup_lunion sp0 r.2.2 hnd) h
            refine ⟨r :: L, ?_, ?_, ?_, ?_⟩
            · rw [List.mapM_cons, hr, except_bind_ok, hL, except_bind_ok]
              rfl
            · rw [List.foldl_cons]
              exact hm
            · rw [hs]
              simp only [List.map_cons, List.sum_cons]
              omega
            · rw [hlen, length_lunion_disjoint sp0 r.2.2 hnd (hrec sub r hr)
                (inter_isEmpty_disjoint sp0 r.2.2 hint)]
              simp only [List.map_cons, List.sum_cons]
              omega
          · rw [if_neg hint] at h
            exact absurd h (by simp)

theorem foldl_max_succ : ∀ (L : List Nat) (c : Nat),
    L.foldl (fun a r => max a (r + 1)) (c + 1) = (L.foldl max c) + 1 := by
  intro L
  induction L with
  | nil => intro c; rfl
  | cons r rest ih =>
      intro c
      rw [List.foldl_cons, List.foldl_cons]
      have : max (c + 1) (r + 1) = (max c r) + 1 := by omega
      rw [this, ih]

/-- C2: for every DecisionNode whose reporting succeeds, with children
(after the reporter's depth sort) contributing statistics
(max_i, sum_i, n_i) where n_i is the child's species count, the reporter
computes max = 1 + max(max_i) (the inner max is 0 with no children),
sum = 1 + sum over i of (sum_i + n_i), a species count of
1 + sum over i of n_i, and prints avg = sum / (1 + sum over i of n_i). -/
theorem c2_reporter_statistics (st : PhyloState) (root : Nat) (f : Nat) (node : Nat)
    (guess : Name) (subs : List DTree) (guesses : List Name) (m s : Nat) (sp : List Name)
    (h : reportStats st root (f + 1) (DTree.mk node guess subs) guesses = .ok (m, s, sp)) :
    ∃ L, (sortByDepth st subs).mapM
        (fun sub => reportStats st root f sub (lunion guesses [guess])) = .ok L ∧
      m = 1 + (L.map (fun r => r.1)).foldl max 0 ∧
      s = 1 + (L.map (fun r => r.2.1 + r.2.2.length)).sum ∧
      sp.length = 1 + (L.map (fun r => r.2.2.length)).sum ∧
      rsAvg s sp = (s : ℚ) / ((1 + (L.map (fun r => r.2.2.length)).sum : Nat) : ℚ) := by
  rw [reportStats_succ_eq] at h
  cases hrc : rsChildren (fun sub => reportStats st root f sub (lunion guesses [guess]))
      (sortByDepth st subs) (1, 1, [guess]) with
  | error e =>
      rw [hrc, except_bind_error] at h
      exact absurd h (by simp)
  | ok acc =>
      rw [hrc, except_bind_ok] at h
      cases hcp : checkPlacement st root guesses node acc.2.2 with
      | error e =>
          rw [hcp, except_bind_error] at h
          exact absurd h (by simp)
      | ok u =>
          rw [hcp, except_bind_ok] at h
          by_cases hall : acc.2.2.all (fun spec => spec ∈ leavesOf st node)
          · rw [if_pos hall] at h
            have h2 : Except.ok acc = Except.ok ((m, s, sp) : Nat × Nat × List Name) := h
            have hacc : acc = (m, s, sp) := Except.ok.inj h2
            subst hacc
            obtain ⟨L, hL, hm, hs, hlen⟩ := rsChildren_ok _
              (fun t r hr => reportStats_nodup st root f t (lunion guesses [guess]) r hr)
              (sortByDepth st subs) 1 1 [guess] (m, s, sp) (List.nodup_singleton guess) hrc
            have hmv : m = L.foldl (fun a r => max a (r.1 + 1)) 1 := hm
            have hsv : s = 1 + (L.map (fun r => r.2.1 + r.2.2.length)).sum := hs
            have hlenv : sp.length = [guess].length + (L.map (fun r => r.2.2.length)).sum := hlen
            have hm2 : m = 1 + (L.map (fun r => r.1)).foldl max 0 := by
              have hfold : L.foldl (fun a r => max a (r.1 + 1)) 1 =
                  ((L.map (fun r => r.1)).foldl (fun a r => max a (r + 1)) 1) := by
                rw [List.foldl_map]
              have := foldl_max_succ (L.map (fun r => r.1)) 0
              rw [hmv, hfold, this]
              omega
            have hlen2 : sp.length = 1 + (L.map (fun r => r.2.2.length)).sum := by
              rw [hlenv]
              simp
            refine ⟨L, hL, hm2, by rw [hsv], hlen2, ?_⟩
            unfold rsAvg
            rw [hlen2]
          · rw [if_neg hall] at h
            exact absurd h (by simp)

theorem c2_witness :
    (2 : Nat) = 1 + (([((1 : Nat), (1 : Nat), ["b".toList]),
        ((1 : Nat), (1 : Nat), ["g".toList])].map (fun r => r.1)).foldl max 0) ∧
    (5 : Nat) = 1 + (([((1 : Nat), (1 : Nat), ["b".toList]),
        ((1 : Nat), (1 : Nat), ["g".toList])].map (fun r => r.2.1 + r.2.2.length)).sum) ∧
    rsAvg 5 ["a".toList, "b".toList, "g".toList] = ((5 : ℚ) / ((3 : Nat) : ℚ)) := by
  obtain ⟨L, hL, hm, hs, hlen, havg⟩ := c2_reporter_statistics exST4 0 8 0 ("a".toList)
    (DTree.subs exD4) [] 2 5 ["a".toList, "b".toList, "g".toList] (by rfl)
  have hLeq : L = [((1 : Nat), (1 : Nat), ["b".toList]),
      ((1 : Nat), (1 : Nat), ["g".toList])] := by
    have h0 : (sortByDepth exST4 (DTree.subs exD4)).mapM
        (fun sub => reportStats exST4 0 8 sub (lunion [] ["a".toList])) =
        Except.ok [((1 : Nat), (1 : Nat), ["b".toList]),
          ((1 : Nat), (1 : Nat), ["g".toList])] := by rfl
    rw [h0] at hL
    exact (Except.ok.inj hL).symm
  subst hLeq
  refine ⟨hm, hs, ?_⟩
  rw [havg]
  norm_num

theorem parentOf_setLeaves (st : PhyloState) (i : Nat) (ls : List Name) (j : Nat) :
    parentOf (setLeaves st i ls) j = parentOf st j := by
  unfold parentOf
  rw [nodeAt_setLeaves]
  by_cases h : j = i ∧ i < st.nodes.length
  · rw [if_pos h]
    show (nodeAt st i).parent = _
    rw [h.1]
  · rw [if_neg h]

theorem childrenOf_setLeaves (st : PhyloState) (i : Nat) (ls : List Name) (j : Nat) :
    childrenOf (setLeaves st i ls) j = childrenOf st j := by
  unfold childrenOf
  rw [nodeAt_setLeaves]
  by_cases h : j = i ∧ i < st.nodes.length
  · rw [if_pos h]
    show (nodeAt st i).children = _
    rw [h.1]
  · rw [if_neg h]

theorem depthOf_setLeaves (st : PhyloState) (i : Nat) (ls : List Name) (j : Nat) :
    depthOf (setLeaves st i ls) j = depthOf st j := by
  unfold depthOf
  rw [nodeAt_setLeaves]
  by_cases h : j = i ∧ i < st.nodes.length
  · rw [if_pos h]
    show (nodeAt st i).depth = _
    rw [h.1]
  · rw [if_neg h]

theorem speciesOf_setLeaves (st : PhyloState) (i : Nat) (ls : List Name) (j : Nat) :
    speciesOf (setLeaves st i ls) j = speciesOf st j := by
  unfold speciesOf
  rw [nodeAt_setLeaves]
  by_cases h : j = i ∧ i < st.nodes.length
  · rw [if_pos h]
    show (nodeAt st i).species = _
    rw [h.1]
  · rw [if_neg h]

theorem leavesOf_setLeaves (st : PhyloState) (i : Nat) (ls : List Name) (j : Nat) :
    leavesOf (setLeaves st i ls) j =
      if j = i ∧ i < st.nodes.length then ls else leavesOf st j := by
  unfold leavesOf
  rw [nodeAt_setLeaves]
  by_cases h : j = i ∧ i < st.nodes.length
  · rw [if_pos h, if_pos h]
  · rw [if_neg h, if_neg h]

theorem parentOf_setSpecies (st : PhyloState) (i : Nat) (sp : Option Name) (j : Nat) :
    parentOf (setSpecies st i sp) j = parentOf st j := by
  unfold parentOf
  rw [nodeAt_setSpecies]
  by_cases h : j = i ∧ i < st.nodes.length
  · rw [if_pos h]
    show (nodeAt st i).parent = _
    rw [h.1]
  · rw [if_neg h]

theorem childrenOf_setSpecies (st : PhyloState) (i : Nat) (sp : Option Name) (j : Nat) :
    childrenOf (setSpecies st i sp) j = childrenOf st j := by
  unfold childrenOf
  rw [nodeAt_setSpecies]
  by_cases h : j = i ∧ i < st.nodes.length
  · rw [if_pos h]
    show (nodeAt st i).children = _
    rw [h.1]
  · rw [if_neg h]

theorem depthOf_setSpecies (st : PhyloState) (i : Nat) (sp : Option Name) (j : Nat) :
    depthOf (setSpecies st i sp) j = depthOf st j := by
  unfold depthOf
  rw [nodeAt_setSpecies]
  by_cases h : j = i ∧ i < st.nodes.length
  · rw [if_pos h]
    show (nodeAt st i).depth = _
    rw [h.1]
  · rw [if_neg h]

theorem leavesOf_setSpecies (st : PhyloState) (i : Nat) (sp : Option Name) (j : Nat) :
    leavesOf (setSpecies st i sp) j = leavesOf st j := by
  unfold leavesOf
  rw [nodeAt_setSpecies]
  by_cases h : j = i ∧ i < st.nodes.length
  · rw [if_pos h]
    show (nodeAt st i).leaves = _
    rw [h.1]
  · rw [if_neg h]

theorem speciesOf_setSpecies (st : PhyloState) (i : Nat) (sp : Option Name) (j : Nat) :
    speciesOf (setSpecies st i sp) j =
      if j = i ∧ i < st.nodes.length then sp else speciesOf st j := by
  unfold speciesOf
  rw [nodeAt_setSpecies]
  by_cases h : j = i ∧ i < st.nodes.length
  · rw [if_pos h, if_pos h]
  · rw [if_neg h, if_neg h]

theorem sciOf_setLeaves (st : PhyloState) (i : Nat) (ls : List Name) (j : Nat) :
    sciOf (setLeaves st i ls) j = sciOf st j := by
  unfold sciOf
  rw [nodeAt_setLeaves]
  by_cases h : j = i ∧ i < st.nodes.length
  · rw [if_pos h]
    show (nodeAt st i).scientific = _
    rw [h.1]
  · rw [if_neg h]

theorem sciOf_setSpecies (st : PhyloState) (i : Nat) (sp : Option Name) (j : Nat) :
    sciOf (setSpecies st i sp) j = sciOf st j := by
  unfold sciOf
  rw [nodeAt_setSpecies]
  by_cases h : j = i ∧ i < st.nodes.length
  · rw [if_pos h]
    show (nodeAt st i).scientific = _
    rw [h.1]
  · rw [if_neg h]

theorem length_setLeaves (st : PhyloState) (i : Nat) (ls : List Name) :
    (setLeaves st i ls).nodes.length = st.nodes.length := length_updNode _ _ _

theorem length_setSpecies (st : PhyloState) (i : Nat) (sp : Option Name) :
    (setSpecies st i sp).nodes.length = st.nodes.length := length_updNode _ _ _

theorem reg_setLeaves (st : PhyloState) (i : Nat) (ls : List Name) :
    (setLeaves st i ls).reg = st.reg := rfl

theorem reg_setSpecies (st : PhyloState) (i : Nat) (sp : Option Name) :
    (setSpecies st i sp).reg = st.reg := rfl

theorem chainF_congr (st₁ st₂ : PhyloState)
    (h : ∀ x, parentOf st₁ x = parentOf st₂ x) :
    ∀ (f : Nat) (i : Nat), chainF st₁ f i = chainF st₂ f i := by
  intro f
  induction f with
  | zero => intro i; rfl
  | succ f ih =>
      intro i
      show (i :: _) = (i :: _)
      rw [h i]
      cases parentOf st₂ i with
      | none => rfl
      | some p =>
          show (i :: chainF st₁ f p) = (i :: chainF st₂ f p)
          rw [ih p]

theorem addLeafChain_succ_eq (f : Nat) (st : PhyloState) (i : Nat) (lab : Name) :
    addLeafChain (f + 1) st i lab =
      (match parentOf (setLeaves st i (linsert lab (leavesOf st i))) i with
       | none => setLeaves st i (linsert lab (leavesOf st i))
       | some p => addLeafChain f (setLeaves st i (linsert lab (leavesOf st i))) p lab) := rfl

theorem addLeafChain_preserves : ∀ (f : Nat) (st : PhyloState) (i : Nat) (lab : Name),
    (∀ j, parentOf (addLeafChain f st i lab) j = parentOf st j) ∧
    (∀ j, childrenOf (addLeafChain f st i lab) j = childrenOf st j) ∧
    (∀ j, depthOf (addLeafChain f st i lab) j = depthOf st j) ∧
    (∀ j, sciOf (addLeafChain f st i lab) j = sciOf st j) ∧
    (∀ j, speciesOf (addLeafChain f st i lab) j = speciesOf st j) ∧
    (addLeafChain f st i lab).nodes.length = st.nodes.length ∧
    (addLeafChain f st i lab).reg = st.reg := by
  intro f
  induction f with
  | zero =>
      intro st i lab
      exact ⟨fun j => rfl, fun j => rfl, fun j => rfl, fun j => rfl, fun j => rfl, rfl, rfl⟩
  | succ f ih =>
      intro st i lab
      rw [addLeafChain_succ_eq]
      cases hp : parentOf (setLeaves st i (linsert lab (leavesOf st i))) i with
      | none =>
          exact ⟨fun j => parentOf_setLeaves st i _ j, fun j => childrenOf_setLeaves st i _ j,
            fun j => depthOf_setLeaves st i _ j, fun j => sciOf_setLeaves st i _ j,
            fun j => speciesOf_setLeaves st i _ j, length_setLeaves st i _,
            reg_setLeaves st i _⟩
      | some p =>
          obtain ⟨i1, i2, i3, i4, i5, i6, i7⟩ := ih (setLeaves st i (linsert lab (leavesOf st i))) p lab
          refine ⟨?_, ?_, ?_, ?_, ?_, ?_, ?_⟩
          · intro j
            rw [i1 j, parentOf_setLeaves]
          · intro j
            rw [i2 j, childrenOf_setLeaves]
          · intro j
            rw [i3 j, depthOf_setLeaves]
          · intro j
            rw [i4 j, sciOf_setLeaves]
          · intro j
            rw [i5 j, speciesOf_setLeaves]
          · rw [i6, length_setLeaves]
          · rw [i7, reg_setLeaves]

theorem addLeafChain_leaves : ∀ (f : Nat) (st : PhyloState) (i : Nat) (lab : Name),
    (∀ x q, parentOf st x = some q → q < st.nodes.length) →
    i < st.nodes.length →
    ∀ j l, l ∈ leavesOf (addLeafChain f st i lab) j ↔
      l ∈ leavesOf st j ∨ (l = lab ∧ j ∈ chainF st f i) := by
  intro f
  induction f with
  | zero =>
      intro st i lab hwf hi j l
      show l ∈ leavesOf st j ↔ _
      simp [chainF]
  | succ f ih =>
      intro st i lab hwf hi j l
      rw [addLeafChain_succ_eq]
      have hps : ∀ x, parentOf (setLeaves st i (linsert lab (leavesOf st i))) x =
          parentOf st x := fun x => parentOf_setLeaves st i _ x
      have hlv : ∀ x, leavesOf (setLeaves st i (linsert lab (leavesOf st i))) x =
          (if x = i ∧ i < st.nodes.length then linsert lab (leavesOf st i)
           else leavesOf st x) := fun x => leavesOf_setLeaves st i _ x
      cases hp : parentOf st i with
      | none =>
          have hred : (match parentOf (setLeaves st i (linsert lab (leavesOf st i))) i with
              | none => setLeaves st i (linsert lab (leavesOf st i))
              | some p => addLeafChain f (setLeaves st i (linsert lab (leavesOf st i))) p lab)
              = setLeaves st i (linsert lab (leavesOf st i)) := by
            rw [hps i, hp]
          have hchain2 : chainF st (f + 1) i = [i] := by
            show (i :: (match parentOf st i with
                        | none => []
                        | some p => chainF st f p)) = [i]
            rw [hp]
          rw [hred, hlv j, hchain2]
          by_cases hj : j = i
          · subst hj
            rw [if_pos ⟨rfl, hi⟩, mem_linsert]
            simp only [List.mem_singleton]
            tauto
          · have hnc : ¬(j = i ∧ i < st.nodes.length) := fun hc => hj hc.1
            rw [if_neg hnc]
            simp only [List.mem_singleton]
            tauto
      | some p =>
          have hred : (match parentOf (setLeaves st i (linsert lab (leavesOf st i))) i with
              | none => setLeaves st i (linsert lab (leavesOf st i))
              | some q => addLeafChain f (setLeaves st i (linsert lab (leavesOf st i))) q lab)
              = addLeafChain f (setLeaves st i (linsert lab (leavesOf st i))) p lab := by
            rw [hps i, hp]
          have hwf2 : ∀ x q, parentOf (setLeaves st i (linsert lab (leavesOf st i))) x =
              some q → q < (setLeaves st i (linsert lab (leavesOf st i))).nodes.length := by
            intro x q hq
            rw [hps x] at hq
            rw [length_setLeaves]
            exact hwf x q hq
          have hp2 : p < (setLeaves st i (linsert lab (leavesOf st i))).nodes.length := by
            rw [length_setLeaves]
            exact hwf i p hp
          have hchain2 : chainF st (f + 1) i = i :: chainF st f p := by
            show (i :: (match parentOf st i with
                        | none => []
                        | some q => chainF st f q)) = _
            rw [hp]
          rw [hred, ih _ p lab hwf2 hp2 j l,
            chainF_congr (setLeaves st i (linsert lab (leavesOf st i))) st hps f p,
            hlv j, hchain2]
          by_cases hj : j = i
          · subst hj
            rw [if_pos ⟨rfl, hi⟩, mem_linsert]
            simp only [List.mem_cons]
            tauto
          · have hnc : ¬(j = i ∧ i < st.nodes.length) := fun hc => hj hc.1
            rw [if_neg hnc]
            simp only [List.mem_cons]
            tauto

theorem alookup_snd_inj [DecidableEq α] : ∀ (r : List (α × β)),
    (r.map Prod.snd).Nodup → ∀ (k₁ k₂ : α) (v : β),
    alookup r k₁ = some v → alookup r k₂ = some v → k₁ = k₂ := by
  intro r
  induction r with
  | nil =>
      intro _ k₁ k₂ v h₁
      exact absurd h₁ (by simp [alookup])
  | cons hd tl ih =>
      obtain ⟨a, b⟩ := hd
      intro hnd k₁ k₂ v h₁ h₂
      rw [List.map_cons, List.nodup_cons] at hnd
      have he₁ : (if a = k₁ then some b else alookup tl k₁) = some v := h₁
      have he₂ : (if a = k₂ then some b else alookup tl k₂) = some v := h₂
      by_cases ha₁ : a = k₁
      · by_cases ha₂ : a = k₂
        · rw [← ha₁, ← ha₂]
        · rw [if_pos ha₁] at he₁
          rw [if_neg ha₂] at he₂
          have hbv : b = v := Option.some.inj he₁
          rw [← hbv] at he₂
          have hmem := alookup_mem tl k₂ b he₂
          have : (b : β) ∈ tl.map Prod.snd := List.mem_map.mpr ⟨(k₂, b), hmem, rfl⟩
          exact absurd this hnd.1
      · by_cases ha₂ : a = k₂
        · rw [if_pos ha₂] at he₂
          rw [if_neg ha₁] at he₁
          have hbv : b = v := Option.some.inj he₂
          rw [← hbv] at he₁
          have hmem := alookup_mem tl k₁ b he₁
          have : (b : β) ∈ tl.map Prod.snd := List.mem_map.mpr ⟨(k₁, b), hmem, rfl⟩
          exact absurd this hnd.1
        · rw [if_neg ha₁] at he₁
          rw [if_neg ha₂] at he₂
          exact ih hnd.2 k₁ k₂ v he₁ he₂

theorem self_mem_chainF (st : PhyloState) (f i : Nat) (h : 0 < f) :
    i ∈ chainF st f i := by
  cases f with
  | zero => exact absurd h (by omega)
  | succ f =>
      show i ∈ i :: _
      exact List.mem_cons_self i _

theorem chainF_succ_none (st : PhyloState) (f i : Nat) (h : parentOf st i = none) :
    chainF st (f + 1) i = [i] := by
  show (i :: (match parentOf st i with | none => [] | some p => chainF st f p)) = [i]
  rw [h]

theorem chainF_succ_some (st : PhyloState) (f i p : Nat) (h : parentOf st i = some p) :
    chainF st (f + 1) i = i :: chainF st f p := by
  show (i :: (match parentOf st i with | none => [] | some q => chainF st f q)) = _
  rw [h]

theorem chain_le (st : PhyloState) (hPW : ParentsWF st) :
    ∀ (f b : Nat), b < st.nodes.length → ∀ c ∈ chainF st f b, c ≤ b := by
  intro f
  induction f with
  | zero =>
      intro b _ c hc
      exact absurd hc (by simp [chainF])
  | succ f ih =>
      intro b hb c hc
      cases hp : parentOf st b with
      | none =>
          rw [chainF_succ_none st f b hp, List.mem_singleton] at hc
          exact Nat.le_of_eq hc
      | some p =>
          rw [chainF_succ_some st f b p hp, List.mem_cons] at hc
          cases hc with
          | inl h => exact Nat.le_of_eq h
          | inr h =>
              have hpb := hPW b hb p hp
              have hpl : p < st.nodes.length := Nat.lt_trans hpb.1 hb
              exact Nat.le_trans (ih p hpl c h) (Nat.le_of_lt hpb.1)

theorem chain_pred (st : PhyloState) :
    ∀ (f b j : Nat), j ∈ chainF st f b →
      j = b ∨ ∃ c ∈ chainF st f b, parentOf st c = some j := by
  intro f
  induction f with
  | zero =>
      intro b j hj
      exact absurd hj (by simp [chainF])
  | succ f ih =>
      intro b j hj
      cases hp : parentOf st b with
      | none =>
          rw [chainF_succ_none st f b hp, List.mem_singleton] at hj
          exact Or.inl hj
      | some p =>
          rw [chainF_succ_some st f b p hp, List.mem_cons] at hj
          cases hj with
          | inl h => exact Or.inl h
          | inr h =>
              cases ih p j h with
              | inl he =>
                  refine Or.inr ⟨b, ?_, ?_⟩
                  · rw [chainF_succ_some st f b p hp]
                    exact List.mem_cons_self b _
                  · rw [hp, he]
              | inr he =>
                  obtain ⟨c, hc1, hc2⟩ := he
                  refine Or.inr ⟨c, ?_, hc2⟩
                  rw [chainF_succ_some st f b p hp]
                  exact List.mem_cons.mpr (Or.inr hc1)

theorem chain_closed (st : PhyloState) (hPW : ParentsWF st) :
    ∀ (f b : Nat), b < f → b < st.nodes.length →
      ∀ c, c ∈ chainF st f b → ∀ j, parentOf st c = some j → j ∈ chainF st f b := by
  intro f
  induction f with
  | zero =>
      intro b hbf
      exact absurd hbf (by omega)
  | succ f ih =>
      intro b hbf hb c hc j hcj
      cases hp : parentOf st b with
      | none =>
          rw [chainF_succ_none st f b hp, List.mem_singleton] at hc
          rw [hc, hp] at hcj
          exact absurd hcj (by simp)
      | some p =>
          have hpb := hPW b hb p hp
          have hpl : p < st.nodes.length := Nat.lt_trans hpb.1 hb
          have hpf : p < f := by omega
          rw [chainF_succ_some st f b p hp] at hc
          rw [chainF_succ_some st f b p hp]
          rw [List.mem_cons] at hc
          cases hc with
          | inl he =>
              rw [he, hp] at hcj
              have hj : j = p := (Option.some.inj hcj).symm
              rw [List.mem_cons]
              refine Or.inr ?_
              rw [hj]
              exact self_mem_chainF st f p (by omega)
          | inr he =>
              exact List.mem_cons.mpr (Or.inr (ih p hpf hpl c he j hcj))

theorem parents_bound (st : PhyloState) (hPW : ParentsWF st) :
    ∀ x q, parentOf st x = some q → q < st.nodes.length := by
  intro x q h
  by_cases hx : x < st.nodes.length
  · exact Nat.lt_trans (hPW x hx q h).1 hx
  · have hn : parentOf st x = none := by
      unfold parentOf
      rw [nodeAt_out st x (Nat.le_of_not_lt hx)]
      rfl
    rw [hn] at h
    exact absurd h (by simp)

theorem bindOne_props (st : PhyloState) (pr : Name × Name) (st' : PhyloState)
    (hwb : ∀ x q, parentOf st x = some q → q < st.nodes.length)
    (hregv : ∀ e ∈ st.reg, e.2 < st.nodes.length)
    (hok : bindOne st pr = Except.ok st') :
    ∃ b, alookup st.reg pr.2 = some b ∧ b < st.nodes.length ∧
      st'.nodes.length = st.nodes.length ∧
      st'.reg = st.reg ∧
      (∀ x, parentOf st' x = parentOf st x) ∧
      (∀ x, childrenOf st' x = childrenOf st x) ∧
      (∀ x, depthOf st' x = depthOf st x) ∧
      (∀ j, speciesOf st' j = if j = b then some pr.1 else speciesOf st j) ∧
      (∀ j l, l ∈ leavesOf st' j ↔
        l ∈ leavesOf st j ∨ (l = pr.1 ∧ j ∈ chainF st (st.nodes.length + 1) b)) := by
  cases hlk : alookup st.reg pr.2 with
  | none =>
      have hbad : bindOne st pr = Except.error Err.keyError := by
        unfold bindOne
        rw [hlk]
      rw [hbad] at hok
      exact Except.noConfusion hok
  | some b =>
      have hblen : b < st.nodes.length := hregv (pr.2, b) (alookup_mem st.reg pr.2 b hlk)
      have hb : bindOne st pr = Except.ok (addLeafChain
          ((setSpecies st b (some pr.1)).nodes.length + 1)
          (PhyloState.mk (setSpecies st b (some pr.1)).nodes
            (setSpecies st b (some pr.1)).reg
            ((pr.1, b) :: (setSpecies st b (some pr.1)).sreg)) b pr.1) := by
        unfold bindOne
        rw [hlk]
      rw [hb] at hok
      have hst' : st' = addLeafChain
          ((setSpecies st b (some pr.1)).nodes.length + 1)
          (PhyloState.mk (setSpecies st b (some pr.1)).nodes
            (setSpecies st b (some pr.1)).reg
            ((pr.1, b) :: (setSpecies st b (some pr.1)).sreg)) b pr.1 :=
        (Except.ok.inj hok).symm
      have hmidPar : ∀ x, parentOf (PhyloState.mk (setSpecies st b (some pr.1)).nodes
          (setSpecies st b (some pr.1)).reg
          ((pr.1, b) :: (setSpecies st b (some pr.1)).sreg)) x = parentOf st x := by
        intro x
        show parentOf (setSpecies st b (some pr.1)) x = parentOf st x
        exact parentOf_setSpecies st b (some pr.1) x
      have hmidLen : (PhyloState.mk (setSpecies st b (some pr.1)).nodes
          (setSpecies st b (some pr.1)).reg
          ((pr.1, b) :: (setSpecies st b (some pr.1)).sreg)).nodes.length
          = st.nodes.length := by
        show (setSpecies st b (some pr.1)).nodes.length = st.nodes.length
        exact length_setSpecies st b (some pr.1)
      have hmidReg : (PhyloState.mk (setSpecies st b (some pr.1)).nodes
          (setSpecies st b (some pr.1)).reg
          ((pr.1, b) :: (setSpecies st b (some pr.1)).sreg)).reg = st.reg := by
        show (setSpecies st b (some pr.1)).reg = st.reg
        exact reg_setSpecies st b (some pr.1)
      obtain ⟨a1, a2, a3, a4, a5, a6, a7⟩ := addLeafChain_preserves
        ((setSpecies st b (some pr.1)).nodes.length + 1)
        (PhyloState.mk (setSpecies st b (some pr.1)).nodes
          (setSpecies st b (some pr.1)).reg
          ((pr.1, b) :: (setSpecies st b (some pr.1)).sreg)) b pr.1
      have hwbMid : ∀ x q, parentOf (PhyloState.mk (setSpecies st b (some pr.1)).nodes
          (setSpecies st b (some pr.1)).reg
          ((pr.1, b) :: (setSpecies st b (some pr.1)).sreg)) x = some q →
          q < (PhyloState.mk (setSpecies st b (some pr.1)).nodes
            (setSpecies st b (some pr.1)).reg
            ((pr.1, b) :: (setSpecies st b (some pr.1)).sreg)).nodes.length := by
        intro x q hq
        rw [hmidPar x] at hq
        rw [hmidLen]
        exact hwb x q hq
      have hbMid : b < (PhyloState.mk (setSpecies st b (some pr.1)).nodes
          (setSpecies st b (some pr.1)).reg
          ((pr.1, b) :: (setSpecies st b (some pr.1)).sreg)).nodes.length := by
        rw [hmidLen]
        exact hblen
      have hLvs := addLeafChain_leaves
        ((setSpecies st b (some pr.1)).nodes.length + 1)
        (PhyloState.mk (setSpecies st b (some pr.1)).nodes
          (setSpecies st b (some pr.1)).reg
          ((pr.1, b) :: (setSpecies st b (some pr.1)).sreg)) b pr.1 hwbMid hbMid
      refine ⟨b, rfl, hblen, ?_, ?_, ?_, ?_, ?_, ?_, ?_⟩
      · rw [hst', a6, hmidLen]
      · rw [hst', a7, hmidReg]
      · intro x
        rw [hst', a1 x, hmidPar x]
      · intro x
        rw [hst', a2 x]
        show childrenOf (setSpecies st b (some pr.1)) x = childrenOf st x
        exact childrenOf_setSpecies st b (some pr.1) x
      · intro x
        rw [hst', a3 x]
        show depthOf (setSpecies st b (some pr.1)) x = depthOf st x
        exact depthOf_setSpecies st b (some pr.1) x
      · intro j
        rw [hst', a5 j]
        have hsp : speciesOf (PhyloState.mk (setSpecies st b (some pr.1)).nodes
            (setSpecies st b (some pr.1)).reg
            ((pr.1, b) :: (setSpecies st b (some pr.1)).sreg)) j
            = if j = b ∧ b < st.nodes.length then some pr.1 else speciesOf st j := by
          show speciesOf (setSpecies st b (some pr.1)) j = _
          exact speciesOf_setSpecies st b (some pr.1) j
        rw [hsp]
        by_cases hjb : j = b
        · rw [if_pos ⟨hjb, hblen⟩, if_pos hjb]
        · have hnc : ¬(j = b ∧ b < st.nodes.length) := fun hc => hjb hc.1
          rw [if_neg hnc, if_neg hjb]
      · intro j l
        rw [hst', hLvs j l]
        have hmidLvs : leavesOf (PhyloState.mk (setSpecies st b (some pr.1)).nodes
            (setSpecies st b (some pr.1)).reg
            ((pr.1, b) :: (setSpecies st b (some pr.1)).sreg)) j = leavesOf st j := by
          show leavesOf (setSpecies st b (some pr.1)) j = _
          exact leavesOf_setSpecies st b (some pr.1) j
        rw [hmidLvs]
        have hchain : chainF (PhyloState.mk (setSpecies st b (some pr.1)).nodes
            (setSpecies st b (some pr.1)).reg
            ((pr.1, b) :: (setSpecies st b (some pr.1)).sreg))
            ((setSpecies st b (some pr.1)).nodes.length + 1) b
            = chainF st (st.nodes.length + 1) b := by
          rw [chainF_congr _ st hmidPar, length_setSpecies]
        rw [hchain]

theorem bind_species_nil (st : PhyloState) : bind_species st [] = Except.ok st := rfl

theorem bind_species_cons (st : PhyloState) (pr : Name × Name) (rest : List (Name × Name)) :
    bind_species st (pr :: rest) =
      (bindOne st pr >>= fun st₁ => bind_species st₁ rest) := by
  unfold bind_species
  rw [List.foldlM_cons]

theorem bind_species_props : ∀ (pairs : List (Name × Name)) (st st' : PhyloState),
    (∀ x q, parentOf st x = some q → q < st.nodes.length) →
    (∀ e ∈ st.reg, e.2 < st.nodes.length) →
    bind_species st pairs = Except.ok st' →
    st'.nodes.length = st.nodes.length ∧
    st'.reg = st.reg ∧
    (∀ x, parentOf st' x = parentOf st x) ∧
    (∀ x, childrenOf st' x = childrenOf st x) ∧
    (∀ x, depthOf st' x = depthOf st x) ∧
    (∀ pr, pr ∈ pairs → ∃ b, alookup st.reg pr.2 = some b ∧ b < st.nodes.length) ∧
    (∀ j l, l ∈ leavesOf st' j ↔ l ∈ leavesOf st j ∨
      ∃ pr, pr ∈ pairs ∧ pr.1 = l ∧ ∃ b, alookup st.reg pr.2 = some b ∧
        j ∈ chainF st (st.nodes.length + 1) b) ∧
    (∀ j l, speciesOf st' j = some l → speciesOf st j = some l ∨
      ∃ pr, pr ∈ pairs ∧ pr.1 = l ∧ alookup st.reg pr.2 = some j) := by
  intro pairs
  induction pairs with
  | nil =>
      intro st st' _ _ hok
      rw [bind_species_nil] at hok
      have hst : st = st' := Except.ok.inj hok
      rw [← hst]
      refine ⟨rfl, rfl, fun x => rfl, fun x => rfl, fun x => rfl, ?_, ?_, ?_⟩
      · intro pr hpr
        exact absurd hpr (by simp)
      · intro j l
        simp
      · intro j l h
        exact Or.inl h
  | cons pr rest ih =>
      intro st st' hwb hregv hok
      rw [bind_species_cons] at hok
      cases hb1 : bindOne st pr with
      | error e =>
          rw [hb1, except_bind_error] at hok
          exact Except.noConfusion hok
      | ok st₁ =>
          rw [hb1, except_bind_ok] at hok
          obtain ⟨b, hlk, hblen, hlen1, hreg1, hpar1, hch1, hdep1, hspec1, hleaf1⟩ :=
            bindOne_props st pr st₁ hwb hregv hb1
          have hwb1 : ∀ x q, parentOf st₁ x = some q → q < st₁.nodes.length := by
            intro x q hq
            rw [hpar1 x] at hq
            rw [hlen1]
            exact hwb x q hq
          have hregv1 : ∀ e ∈ st₁.reg, e.2 < st₁.nodes.length := by
            intro e he
            rw [hreg1] at he
            rw [hlen1]
            exact hregv e he
          obtain ⟨hlen2, hreg2, hpar2, hch2, hdep2, hlook2, hleaf2, hspec2⟩ :=
            ih st₁ st' hwb1 hregv1 hok
          have hchain1 : ∀ i, chainF st₁ (st₁.nodes.length + 1) i =
              chainF st (st.nodes.length + 1) i := by
            intro i
            rw [chainF_congr st₁ st hpar1, hlen1]
          refine ⟨?_, ?_, ?_, ?_, ?_, ?_, ?_, ?_⟩
          · rw [hlen2, hlen1]
          · rw [hreg2, hreg1]
          · intro x
            rw [hpar2 x, hpar1 x]
          · intro x
            rw [hch2 x, hch1 x]
          · intro x
            rw [hdep2 x, hdep1 x]
          · intro q hq
            rw [List.mem_cons] at hq
            cases hq with
            | inl he =>
                rw [he]
                exact ⟨b, hlk, hblen⟩
            | inr hm =>
                obtain ⟨b', h1, h2⟩ := hlook2 q hm
                rw [hreg1] at h1
                rw [hlen1] at h2
                exact ⟨b', h1, h2⟩
          · intro j l
            rw [hleaf2 j l, hleaf1 j l]
            constructor
            · rintro ((h | ⟨h1, h2⟩) | ⟨q, hq, hq1, b', hb', hj⟩)
              · exact Or.inl h
              · exact Or.inr ⟨pr, List.mem_cons_self pr rest, h1.symm, b, hlk, h2⟩
              · rw [hreg1] at hb'
                rw [hchain1 b'] at hj
                exact Or.inr ⟨q, List.mem_cons.mpr (Or.inr hq), hq1, b', hb', hj⟩
            · rintro (h | ⟨q, hq, hq1, b', hb', hj⟩)
              · exact Or.inl (Or.inl h)
              · rw [List.mem_cons] at hq
                cases hq with
                | inl heq =>
                    rw [heq] at hq1 hb'
                    rw [hlk] at hb'
                    have hbb : b' = b := (Option.some.inj hb').symm
                    rw [hbb] at hj
                    exact Or.inl (Or.inr ⟨hq1.symm, hj⟩)
                | inr hm =>
                    refine Or.inr ⟨q, hm, hq1, b', ?_, ?_⟩
                    · rw [hreg1]
                      exact hb'
                    · rw [hchain1 b']
                      exact hj
          · intro j l h
            cases hspec2 j l h with
            | inl h1 =>
                rw [hspec1 j] at h1
                by_cases hjb : j = b
                · rw [if_pos hjb] at h1
                  have hl : pr.1 = l := Option.some.inj h1
                  refine Or.inr ⟨pr, List.mem_cons_self pr rest, hl, ?_⟩
                  rw [hjb]
                  exact hlk
                · rw [if_neg hjb] at h1
                  exact Or.inl h1
            | inr h1 =>
                obtain ⟨q, hq, hq1, hq2⟩ := h1
                rw [hreg1] at hq2
                exact Or.inr ⟨q, List.mem_cons.mpr (Or.inr hq), hq1, hq2⟩

theorem bind_species_species_frame : ∀ (pairs : List (Name × Name)) (st st' : PhyloState),
    (∀ x q, parentOf st x = some q → q < st.nodes.length) →
    (∀ e ∈ st.reg, e.2 < st.nodes.length) →
    bind_species st pairs = Except.ok st' →
    ∀ j, (∀ q, q ∈ pairs → ∀ b, alookup st.reg q.2 = some b → b ≠ j) →
      speciesOf st' j = speciesOf st j := by
  intro pairs
  induction pairs with
  | nil =>
      intro st st' _ _ hok j _
      rw [bind_species_nil] at hok
      rw [← Except.ok.inj hok]
  | cons pr rest ih =>
      intro st st' hwb hregv hok j hnone
      rw [bind_species_cons] at hok
      cases hb1 : bindOne st pr with
      | error e =>
          rw [hb1, except_bind_error] at hok
          exact Except.noConfusion hok
      | ok st₁ =>
          rw [hb1, except_bind_ok] at hok
          obtain ⟨b, hlk, hblen, hlen1, hreg1, hpar1, hch1, hdep1, hspec1, hleaf1⟩ :=
            bindOne_props st pr st₁ hwb hregv hb1
          have hwb1 : ∀ x q, parentOf st₁ x = some q → q < st₁.nodes.length := by
            intro x q hq
            rw [hpar1 x] at hq
            rw [hlen1]
            exact hwb x q hq
          have hregv1 : ∀ e ∈ st₁.reg, e.2 < st₁.nodes.length := by
            intro e he
            rw [hreg1] at he
            rw [hlen1]
            exact hregv e he
          have hnone1 : ∀ q, q ∈ rest → ∀ b', alookup st₁.reg q.2 = some b' → b' ≠ j := by
            intro q hq b' hb'
            rw [hreg1] at hb'
            exact hnone q (List.mem_cons.mpr (Or.inr hq)) b' hb'
          rw [ih st₁ st' hwb1 hregv1 hok j hnone1, hspec1 j]
          have hjb : ¬ j = b := by
            intro hjb
            exact hnone pr (List.mem_cons_self pr rest) b hlk hjb.symm
          rw [if_neg hjb]

theorem bind_species_species_exact : ∀ (pairs : List (Name × Name)) (st st' : PhyloState),
    (∀ x q, parentOf st x = some q → q < st.nodes.length) →
    (∀ e ∈ st.reg, e.2 < st.nodes.length) →
    (st.reg.map Prod.snd).Nodup →
    (pairs.map Prod.snd).Nodup →
    bind_species st pairs = Except.ok st' →
    ∀ pr, pr ∈ pairs → ∀ b, alookup st.reg pr.2 = some b →
      speciesOf st' b = some pr.1 := by
  intro pairs
  induction pairs with
  | nil =>
      intro st st' _ _ _ _ _ pr hpr
      exact absurd hpr (by simp)
  | cons p rest ih =>
      intro st st' hwb hregv hregN hsci hok pr hpr b hb
      rw [bind_species_cons] at hok
      cases hb1 : bindOne st p with
      | error e =>
          rw [hb1, except_bind_error] at hok
          exact Except.noConfusion hok
      | ok st₁ =>
          rw [hb1, except_bind_ok] at hok
          obtain ⟨b0, hlk0, hblen0, hlen1, hreg1, hpar1, hch1, hdep1, hspec1, hleaf1⟩ :=
            bindOne_props st p st₁ hwb hregv hb1
          have hwb1 : ∀ x q, parentOf st₁ x = some q → q < st₁.nodes.length := by
            intro x q hq
            rw [hpar1 x] at hq
            rw [hlen1]
            exact hwb x q hq
          have hregv1 : ∀ e ∈ st₁.reg, e.2 < st₁.nodes.length := by
            intro e he
            rw [hreg1] at he
            rw [hlen1]
            exact hregv e he
          rw [List.map_cons, List.nodup_cons] at hsci
          rw [List.mem_cons] at hpr
          cases hpr with
          | inl hpe =>
              rw [hpe] at hb
              have hbb0 : b = b0 := by
                rw [hlk0] at hb
                exact (Option.some.inj hb).symm
              have hframe : speciesOf st' b = speciesOf st₁ b := by
                refine bind_species_species_frame rest st₁ st' hwb1 hregv1 hok b ?_
                intro q hq b' hb' hbj
                rw [hreg1] at hb'
                rw [hbj, hbb0] at hb'
                have hqp : q.2 = p.2 := alookup_snd_inj st.reg hregN q.2 p.2 b0 hb' hlk0
                have : p.2 ∈ rest.map Prod.snd := by
                  rw [← hqp]
                  exact List.mem_map.mpr ⟨q, hq, rfl⟩
                exact absurd this hsci.1
              rw [hframe, hspec1 b, hbb0, if_pos rfl, hpe]
          | inr hm =>
              have hsci1 : (st₁.reg.map Prod.snd).Nodup := by
                rw [hreg1]
                exact hregN
              have hb1' : alookup st₁.reg pr.2 = some b := by
                rw [hreg1]
                exact hb
              exact ih st₁ st' hwb1 hregv1 hsci1 hsci.2 hok pr hm b hb1'

/-- C5: after the candidate binder finishes (bind_species succeeds on a
structurally well-formed, freshly parsed state whose SCIENTIFIC registry is
valid and duplicate-free, with distinct scientific names among the
candidate records), every node of the tree satisfies the leaf-set
equation of the specification: a label lies in a node's leaves iff it lies
in the leaves of one of the node's children or it is the node's own bound
species.  Moreover, whenever every node's ancestor chain reaches the root
node 0, the root's leaf set is exactly the set of candidate labels. -/
theorem c5_binder_leaf_invariant
    (st st' : PhyloState) (pairs : List (Name × Name))
    (hwf : TreeWF st) (hclean : CleanWF st)
    (hregv : ∀ e ∈ st.reg, e.2 < st.nodes.length)
    (hregN : (st.reg.map Prod.snd).Nodup)
    (hsci : (pairs.map Prod.snd).Nodup)
    (hok : bind_species st pairs = Except.ok st') :
    (∀ j, j < st.nodes.length → ∀ l,
      (l ∈ leavesOf st' j ↔
        (∃ c, c ∈ childrenOf st' j ∧ l ∈ leavesOf st' c) ∨
        speciesOf st' j = some l)) ∧
    ((0 < st.nodes.length ∧ ∀ i, i < st.nodes.length → 0 ∈ chainOf st i) →
      ∀ l, (l ∈ leavesOf st' 0 ↔ l ∈ pairs.map Prod.fst)) := by
  obtain ⟨hPW, hCW, hPC, hND⟩ := hwf
  have hwb := parents_bound st hPW
  obtain ⟨hlen, hreg, hpar, hch, hdep, hlook, hleaf, hspec⟩ :=
    bind_species_props pairs st st' hwb hregv hok
  constructor
  · intro j hj l
    constructor
    · intro hl
      rw [hleaf j l] at hl
      cases hl with
      | inl h =>
          rw [(hclean j hj).1] at h
          exact absurd h (by simp)
      | inr h =>
          obtain ⟨pr, hpr, hl1, b, hlk, hjc⟩ := h
          have hblen : b < st.nodes.length :=
            hregv (pr.2, b) (alookup_mem st.reg pr.2 b hlk)
          cases chain_pred st (st.nodes.length + 1) b j hjc with
          | inl hjb =>
              refine Or.inr ?_
              rw [hjb,
                bind_species_species_exact pairs st st' hwb hregv hregN hsci hok pr hpr b hlk,
                hl1]
          | inr hex =>
              obtain ⟨c, hcmem, hcpar⟩ := hex
              have hcle : c ≤ b := chain_le st hPW (st.nodes.length + 1) b hblen c hcmem
              have hclen : c < st.nodes.length := Nat.lt_of_le_of_lt hcle hblen
              have hpc := hPC c hclen j hcpar
              refine Or.inl ⟨c, ?_, ?_⟩
              · rw [hch j]
                exact hpc.2
              · rw [hleaf c l]
                exact Or.inr ⟨pr, hpr, hl1, b, hlk, hcmem⟩
    · intro hl
      cases hl with
      | inl h =>
          obtain ⟨c, hcmem, hcl⟩ := h
          rw [hch j] at hcmem
          have hcw := hCW j hj c hcmem
          rw [hleaf c l] at hcl
          cases hcl with
          | inl h2 =>
              rw [(hclean c hcw.1).1] at h2
              exact absurd h2 (by simp)
          | inr h2 =>
              obtain ⟨pr, hpr, hl1, b, hlk, hcc⟩ := h2
              have hblen : b < st.nodes.length :=
                hregv (pr.2, b) (alookup_mem st.reg pr.2 b hlk)
              have hbf : b < st.nodes.length + 1 := by omega
              have hjc : j ∈ chainF st (st.nodes.length + 1) b :=
                chain_closed st hPW (st.nodes.length + 1) b hbf hblen c hcc j hcw.2
              rw [hleaf j l]
              exact Or.inr ⟨pr, hpr, hl1, b, hlk, hjc⟩
      | inr h =>
          cases hspec j l h with
          | inl h2 =>
              rw [(hclean j hj).2] at h2
              exact absurd h2 (by simp)
          | inr h2 =>
              obtain ⟨pr, hpr, hl1, hlk⟩ := h2
              rw [hleaf j l]
              refine Or.inr ⟨pr, hpr, hl1, j, hlk, ?_⟩
              exact self_mem_chainF st (st.nodes.length + 1) j (by omega)
  · rintro ⟨hpos, hroot⟩ l
    constructor
    · intro hl
      rw [hleaf 0 l] at hl
      cases hl with
      | inl h =>
          rw [(hclean 0 hpos).1] at h
          exact absurd h (by simp)
      | inr h =>
          obtain ⟨pr, hpr, hl1, b, hlk, hjc⟩ := h
          exact List.mem_map.mpr ⟨pr, hpr, hl1⟩
    · intro hl
      obtain ⟨pr, hpr, hl1⟩ := List.mem_map.mp hl
      obtain ⟨b, hlk, hblen⟩ := hlook pr hpr
      rw [hleaf 0 l]
      refine Or.inr ⟨pr, hpr, hl1, b, hlk, ?_⟩
      exact hroot b hblen

theorem c5_witness :
    bind_species (parse_phylo_tree exL4).1 exP4 = Except.ok exST4 ∧
    (∀ j, j < (parse_phylo_tree exL4).1.nodes.length → ∀ l,
      (l ∈ leavesOf exST4 j ↔
        (∃ c, c ∈ childrenOf exST4 j ∧ l ∈ leavesOf exST4 c) ∨
        speciesOf exST4 j = some l)) ∧
    (∀ l, (l ∈ leavesOf exST4 0 ↔ l ∈ exP4.map Prod.fst)) :=
  have h := c5_binder_leaf_invariant (parse_phylo_tree exL4).1 exST4 exP4
    ⟨(parse_wf exL4).1.1, (parse_wf exL4).1.2.1, (parse_wf exL4).1.2.2.1,
      (parse_wf exL4).1.2.2.2⟩
    (parse_wf exL4).2.1
    (parse_phylo_tree_inv exL4).2.2.2.2.1
    (parse_phylo_tree_inv exL4).2.2.2.2.2
    (by decide) (by decide)
  ⟨by decide, h.1, h.2 (by decide)⟩

theorem depth0_parent_none (st : PhyloState) (hED : ExactDepths st) (a : Nat)
    (ha : a < st.nodes.length) (hd : depthOf st a = 0) : parentOf st a = none := by
  cases hp : parentOf st a with
  | none => rfl
  | some p =>
      have := (hED a ha p hp).2
      rw [hd] at this
      exact absurd this (by omega)

theorem anc_cons (st : PhyloState) (hED : ExactDepths st) (a p : Nat)
    (ha : a < st.nodes.length) (hp : parentOf st a = some p) :
    chainF st (depthOf st a + 1) a = a :: chainF st (depthOf st p + 1) p := by
  have hd := (hED a ha p hp).2
  rw [chainF_succ_some st (depthOf st a) a p hp, hd]

theorem anc_self (st : PhyloState) (a : Nat) :
    a ∈ chainF st (depthOf st a + 1) a :=
  self_mem_chainF st (depthOf st a + 1) a (by omega)

theorem anc_mem_le (st : PhyloState) (hED : ExactDepths st) :
    ∀ (n a : Nat), a < st.nodes.length → depthOf st a ≤ n →
      ∀ x ∈ chainF st (depthOf st a + 1) a,
        x < st.nodes.length ∧ depthOf st x ≤ depthOf st a := by
  intro n
  induction n with
  | zero =>
      intro a ha hd x hx
      have hd0 : depthOf st a = 0 := by omega
      rw [chainF_succ_none st (depthOf st a) a (depth0_parent_none st hED a ha hd0),
        List.mem_singleton] at hx
      rw [hx]
      exact ⟨ha, Nat.le_refl _⟩
  | succ n ih =>
      intro a ha hd x hx
      cases hp : parentOf st a with
      | none =>
          rw [chainF_succ_none st (depthOf st a) a hp, List.mem_singleton] at hx
          rw [hx]
          exact ⟨ha, Nat.le_refl _⟩
      | some p =>
          rw [anc_cons st hED a p ha hp, List.mem_cons] at hx
          obtain ⟨hplen, hpd⟩ := hED a ha p hp
          cases hx with
          | inl h =>
              rw [h]
              exact ⟨ha, Nat.le_refl _⟩
          | inr h =>
              have hpn : depthOf st p ≤ n := by omega
              have := ih p hplen hpn x h
              exact ⟨this.1, by omega⟩

theorem chain_trans_anc (st : PhyloState) (hED : ExactDepths st) :
    ∀ (n a : Nat), a < st.nodes.length → depthOf st a ≤ n →
      ∀ x ∈ chainF st (depthOf st a + 1) a,
        ∀ y ∈ chainF st (depthOf st x + 1) x, y ∈ chainF st (depthOf st a + 1) a := by
  intro n
  induction n with
  | zero =>
      intro a ha hd x hx y hy
      have hd0 : depthOf st a = 0 := by omega
      rw [chainF_succ_none st (depthOf st a) a (depth0_parent_none st hED a ha hd0),
        List.mem_singleton] at hx
      rw [hx] at hy
      rw [chainF_succ_none st (depthOf st a) a (depth0_parent_none st hED a ha hd0)]
      rw [chainF_succ_none st (depthOf st a) a (depth0_parent_none st hED a ha hd0),
        List.mem_singleton] at hy
      rw [List.mem_singleton]
      exact hy
  | succ n ih =>
      intro a ha hd x hx y hy
      cases hp : parentOf st a with
      | none =>
          rw [chainF_succ_none st (depthOf st a) a hp, List.mem_singleton] at hx
          rw [hx] at hy
          rw [chainF_succ_none st (depthOf st a) a hp]
          rw [chainF_succ_none st (depthOf st a) a hp, List.mem_singleton] at hy
          rw [List.mem_singleton]
          exact hy
      | some p =>
          obtain ⟨hplen, hpd⟩ := hED a ha p hp
          rw [anc_cons st hED a p ha hp, List.mem_cons] at hx
          rw [anc_cons st hED a p ha hp, List.mem_cons]
          cases hx with
          | inl h =>
              rw [h] at hy
              rw [anc_cons st hED a p ha hp, List.mem_cons] at hy
              exact hy
          | inr h =>
              have hpn : depthOf st p ≤ n := by omega
              exact Or.inr (ih p hplen hpn x h y hy)

theorem chain_between (st : PhyloState) (hED : ExactDepths st) :
    ∀ (n a : Nat), a < st.nodes.length → depthOf st a ≤ n →
      ∀ x ∈ chainF st (depthOf st a + 1) a, ∀ y ∈ chainF st (depthOf st a + 1) a,
        depthOf st y ≤ depthOf st x → y ∈ chainF st (depthOf st x + 1) x := by
  intro n
  induction n with
  | zero =>
      intro a ha hd x hx y hy _
      have hd0 : depthOf st a = 0 := by omega
      rw [chainF_succ_none st (depthOf st a) a (depth0_parent_none st hED a ha hd0),
        List.mem_singleton] at hx hy
      rw [hx, hy]
      exact anc_self st a
  | succ n ih =>
      intro a ha hd x hx y hy hdyx
      cases hp : parentOf st a with
      | none =>
          rw [chainF_succ_none st (depthOf st a) a hp, List.mem_singleton] at hx hy
          rw [hx, hy]
          exact anc_self st a
      | some p =>
          obtain ⟨hplen, hpd⟩ := hED a ha p hp
          have hpn : depthOf st p ≤ n := by omega
          rw [anc_cons st hED a p ha hp, List.mem_cons] at hx hy
          cases hx with
          | inl hxa =>
              rw [hxa]
              rw [anc_cons st hED a p ha hp, List.mem_cons]
              exact hy
          | inr hxp =>
              cases hy with
              | inl hya =>
                  have hxle := (anc_mem_le st hED n p hplen hpn x hxp).2
                  rw [hya] at hdyx
                  exact absurd hdyx (by omega)
              | inr hyp =>
                  exact ih p hplen hpn x hxp y hyp hdyx

theorem anc_depth_inj (st : PhyloState) (hED : ExactDepths st) :
    ∀ (n a : Nat), a < st.nodes.length → depthOf st a ≤ n →
      ∀ x ∈ chainF st (depthOf st a + 1) a, ∀ y ∈ chainF st (depthOf st a + 1) a,
        depthOf st x = depthOf st y → x = y := by
  intro n
  induction n with
  | zero =>
      intro a ha hd x hx y hy _
      have hd0 : depthOf st a = 0 := by omega
      rw [chainF_succ_none st (depthOf st a) a (depth0_parent_none st hED a ha hd0),
        List.mem_singleton] at hx hy
      rw [hx, hy]
  | succ n ih =>
      intro a ha hd x hx y hy hdxy
      cases hp : parentOf st a with
      | none =>
          rw [chainF_succ_none st (depthOf st a) a hp, List.mem_singleton] at hx hy
          rw [hx, hy]
      | some p =>
          obtain ⟨hplen, hpd⟩ := hED a ha p hp
          have hpn : depthOf st p ≤ n := by omega
          rw [anc_cons st hED a p ha hp, List.mem_cons] at hx hy
          cases hx with
          | inl hxa =>
              cases hy with
              | inl hya => rw [hxa, hya]
              | inr hyp =>
                  have := (anc_mem_le st hED n p hplen hpn y hyp).2
                  rw [hxa] at hdxy
                  exact absurd hdxy (by omega)
          | inr hxp =>
              cases hy with
              | inl hya =>
                  have := (anc_mem_le st hED n p hplen hpn x hxp).2
                  rw [hya] at hdxy
                  exact absurd hdxy (by omega)
              | inr hyp =>
                  exact ih p hplen hpn x hxp y hyp hdxy

theorem ascend_zero_eq (st : PhyloState) (target a : Nat) :
    ascend st 0 target a = (if depthOf st a > target then none else some a) := rfl

theorem ascend_succ_eq (st : PhyloState) (f target a : Nat) :
    ascend st (f + 1) target a =
      (if depthOf st a > target then
        match parentOf st a with
        | none => none
        | some p => ascend st f target p
      else some a) := rfl

theorem ascend_spec (st : PhyloState) (hED : ExactDepths st) (hR : RootedWF st) :
    ∀ (f a target : Nat), a < st.nodes.length → depthOf st a ≤ target + f →
      ∃ a', ascend st f target a = some a' ∧ a' < st.nodes.length ∧
        a' ∈ chainF st (depthOf st a + 1) a ∧
        depthOf st a' = min (depthOf st a) target ∧
        (∀ d ∈ chainF st (depthOf st a + 1) a, depthOf st d ≤ target →
          d ∈ chainF st (depthOf st a' + 1) a') := by
  intro f
  induction f with
  | zero =>
      intro a target ha hf
      have hle : ¬ depthOf st a > target := by omega
      refine ⟨a, ?_, ha, anc_self st a, ?_, ?_⟩
      · rw [ascend_zero_eq, if_neg hle]
      · omega
      · intro d hd _
        exact hd
  | succ f ih =>
      intro a target ha hf
      by_cases hgt : depthOf st a > target
      · cases hp : parentOf st a with
        | none =>
            have := hR a ha hp
            exact absurd this (by omega)
        | some p =>
            obtain ⟨hplen, hpd⟩ := hED a ha p hp
            have hpf : depthOf st p ≤ target + f := by omega
            obtain ⟨a', h1, h2, h3, h4, h5⟩ := ih p target hplen hpf
            have heq : ascend st (f + 1) target a = ascend st f target p := by
              rw [ascend_succ_eq, if_pos hgt, hp]
            refine ⟨a', by rw [heq, h1], h2, ?_, ?_, ?_⟩
            · rw [anc_cons st hED a p ha hp, List.mem_cons]
              exact Or.inr h3
            · omega
            · intro d hd hdle
              rw [anc_cons st hED a p ha hp, List.mem_cons] at hd
              cases hd with
              | inl hda =>
                  rw [hda] at hdle
                  exact absurd hdle (by omega)
              | inr hdp =>
                  exact h5 d hdp hdle
      · refine ⟨a, ?_, ha, anc_self st a, ?_, ?_⟩
        · rw [ascend_succ_eq, if_neg hgt]
        · omega
        · intro d hd _
          exact hd

theorem lockstep_succ_eq (st : PhyloState) (f a b : Nat) :
    lockstep st (f + 1) a b =
      (if a = b then some a
       else
        match parentOf st a, parentOf st b with
        | some pa, some pb => lockstep st f pa pb
        | _, _ => none) := rfl

theorem lockstep_spec (st : PhyloState) (hED : ExactDepths st) (hR : RootedWF st)
    (hU : UniqueRoot st) :
    ∀ (n x y f : Nat), x < st.nodes.length → y < st.nodes.length →
      depthOf st x = depthOf st y → depthOf st x ≤ n → depthOf st x + 1 ≤ f →
      ∃ c, lockstep st f x y = some c ∧ c < st.nodes.length ∧
        c ∈ chainF st (depthOf st x + 1) x ∧
        c ∈ chainF st (depthOf st y + 1) y ∧
        (∀ d, d ∈ chainF st (depthOf st x + 1) x →
          d ∈ chainF st (depthOf st y + 1) y → depthOf st d ≤ depthOf st c) := by
  intro n
  induction n with
  | zero =>
      intro x y f hx hy hdeq hdn hfl
      have hd0 : depthOf st x = 0 := by omega
      have hxy : x = y := hU x y hx hy hd0 (by omega)
      obtain ⟨f', rfl⟩ : ∃ f', f = f' + 1 := ⟨f - 1, by omega⟩
      refine ⟨x, ?_, hx, anc_self st x, ?_, ?_⟩
      · rw [lockstep_succ_eq, if_pos hxy]
      · rw [hxy]
        exact anc_self st y
      · intro d hd _
        exact (anc_mem_le st hED 0 x hx (by omega) d hd).2
  | succ n ih =>
      intro x y f hx hy hdeq hdn hfl
      obtain ⟨f', rfl⟩ : ∃ f', f = f' + 1 := ⟨f - 1, by omega⟩
      by_cases hxy : x = y
      · refine ⟨x, ?_, hx, anc_self st x, ?_, ?_⟩
        · rw [lockstep_succ_eq, if_pos hxy]
        · rw [hxy]
          exact anc_self st y
        · intro d hd _
          exact (anc_mem_le st hED (n + 1) x hx hdn d hd).2
      · have hdpos : 0 < depthOf st x := by
          by_contra h0
          have hd0 : depthOf st x = 0 := by omega
          exact hxy (hU x y hx hy hd0 (by omega))
        cases hpx : parentOf st x with
        | none =>
            have := hR x hx hpx
            exact absurd this (by omega)
        | some px =>
            cases hpy : parentOf st y with
            | none =>
                have := hR y hy hpy
                exact absurd this (by omega)
            | some py =>
                obtain ⟨hpxlen, hpxd⟩ := hED x hx px hpx
                obtain ⟨hpylen, hpyd⟩ := hED y hy py hpy
                have hdeq' : depthOf st px = depthOf st py := by omega
                have hdn' : depthOf st px ≤ n := by omega
                have hfl' : depthOf st px + 1 ≤ f' := by omega
                obtain ⟨c, h1, h2, h3, h4, h5⟩ := ih px py f' hpxlen hpylen hdeq' hdn' hfl'
                have heq : lockstep st (f' + 1) x y = lockstep st f' px py := by
                  rw [lockstep_succ_eq, if_neg hxy, hpx, hpy]
                refine ⟨c, by rw [heq, h1], h2, ?_, ?_, ?_⟩
                · rw [anc_cons st hED x px hx hpx, List.mem_cons]
                  exact Or.inr h3
                · rw [anc_cons st hED y py hy hpy, List.mem_cons]
                  exact Or.inr h4
                · intro d hdx hdy
                  rw [anc_cons st hED x px hx hpx, List.mem_cons] at hdx
                  rw [anc_cons st hED y py hy hpy, List.mem_cons] at hdy
                  cases hdx with
                  | inl hde =>
                      cases hdy with
                      | inl hde' =>
                          rw [hde] at hde'
                          exact absurd hde' hxy
                      | inr hdp =>
                          have := (anc_mem_le st hED n py hpylen (by omega) d hdp).2
                          rw [hde] at this
                          exact absurd this (by omega)
                  | inr hdp =>
                      cases hdy with
                      | inl hde' =>
                          have := (anc_mem_le st hED n px hpxlen (by omega) d hdp).2
                          rw [hde'] at this
                          exact absurd this (by omega)
                      | inr hdp' =>
                          exact h5 d hdp hdp'

theorem lca_spec (st : PhyloState) (hED : ExactDepths st) (hR : RootedWF st)
    (hU : UniqueRoot st) (a b : Nat) (ha : a < st.nodes.length) (hb : b < st.nodes.length) :
    ∃ c, lca_2nodes st a b = some c ∧ c < st.nodes.length ∧
      c ∈ chainF st (depthOf st a + 1) a ∧
      c ∈ chainF st (depthOf st b + 1) b ∧
      (∀ d, d ∈ chainF st (depthOf st a + 1) a →
        d ∈ chainF st (depthOf st b + 1) b → depthOf st d ≤ depthOf st c) := by
  obtain ⟨a', ha1, ha2, ha3, ha4, ha5⟩ :=
    ascend_spec st hED hR (depthOf st a + 1) a (depthOf st b) ha (by omega)
  obtain ⟨b', hb1, hb2, hb3, hb4, hb5⟩ :=
    ascend_spec st hED hR (depthOf st b + 1) b (depthOf st a') hb (by omega)
  have hdeq : depthOf st a' = depthOf st b' := by omega
  obtain ⟨c, hc1, hc2, hc3, hc4, hc5⟩ :=
    lockstep_spec st hED hR hU (depthOf st a') a' b' (depthOf st a' + 2) ha2 hb2 hdeq
      (Nat.le_refl _) (by omega)
  have heq : lca_2nodes st a b = lockstep st (depthOf st a' + 2) a' b' := by
    unfold lca_2nodes
    rw [ha1]
    dsimp only
    rw [hb1]
  refine ⟨c, by rw [heq, hc1], hc2, ?_, ?_, ?_⟩
  · exact chain_trans_anc st hED (depthOf st a) a ha (Nat.le_refl _) a' ha3 c hc3
  · exact chain_trans_anc st hED (depthOf st b) b hb (Nat.le_refl _) b' hb3 c hc4
  · intro d hda hdb
    have hdbLe : depthOf st d ≤ depthOf st b :=
      (anc_mem_le st hED (depthOf st b) b hb (Nat.le_refl _) d hdb).2
    have hdaLe : depthOf st d ≤ depthOf st a :=
      (anc_mem_le st hED (depthOf st a) a ha (Nat.le_refl _) d hda).2
    have hda' : d ∈ chainF st (depthOf st a' + 1) a' := ha5 d hda hdbLe
    have hdb' : d ∈ chainF st (depthOf st b' + 1) b' := hb5 d hdb (by omega)
    exact hc5 d hda' hdb'

theorem lcaWF_of (st : PhyloState)
    (h1 : ∀ i, i < st.nodes.length → ∀ p ∈ parentOf st i,
        p < st.nodes.length ∧ depthOf st i = depthOf st p + 1)
    (h2 : ∀ i, i < st.nodes.length → (parentOf st i = none → depthOf st i = 0))
    (h3 : ∀ i, i < st.nodes.length → ∀ j, j < st.nodes.length →
        depthOf st i = 0 → depthOf st j = 0 → i = j) :
    LcaWF st := by
  refine ⟨?_, h2, fun i j hi hj => h3 i hi j hj⟩
  intro i hi p hp
  exact h1 i hi p hp

/-- C6: the claim says the LCA walks terminate at a common node for every
pair of nodes of every parsed tree.  On the parsed tree of exL3 (an
over-indented outline the parser accepts, see C7) the lockstep walk of
lca_2nodes on nodes 1 and 3 steps past an absent parent and reaches no
common node: the modelled result is none (in Python: the loop dereferences
None or exits with the non-node None). -/
theorem c6_counterexample :
    1 < exST3.nodes.length ∧ 3 < exST3.nodes.length ∧
      lca_2nodes exST3 1 3 = none := by decide

/-- C6 (amended): on a state whose parent edges decrement depth by exactly
one, whose parentless nodes sit at depth 0 and which has a unique root
(LcaWF - the shape the specification assumes of parsed trees, which holds
for well-formed outlines but not for all parser outputs), lca_2nodes
terminates on every pair of nodes: both depth-equalising walks and the
lockstep walk succeed and yield a node lying on the ancestor chains of
both arguments. -/
theorem c6_lca_terminates (st : PhyloState) (hL : LcaWF st) (a b : Nat)
    (ha : a < st.nodes.length) (hb : b < st.nodes.length) :
    ∃ c, lca_2nodes st a b = some c ∧
      c ∈ chainF st (depthOf st a + 1) a ∧ c ∈ chainF st (depthOf st b + 1) b := by
  obtain ⟨hED, hR, hU⟩ := hL
  obtain ⟨c, h1, _, h3, h4, _⟩ := lca_spec st hED hR hU a b ha hb
  exact ⟨c, h1, h3, h4⟩

theorem c6_witness :
    (1 < exST1.nodes.length ∧ 3 < exST1.nodes.length) ∧
    ∃ c, lca_2nodes exST1 1 3 = some c ∧
      c ∈ chainF exST1 (depthOf exST1 1 + 1) 1 ∧
      c ∈ chainF exST1 (depthOf exST1 3 + 1) 3 :=
  ⟨⟨by decide, by decide⟩,
    c6_lca_terminates exST1 (lcaWF_of exST1 (by decide) (by decide) (by decide)) 1 3
      (by decide) (by decide)⟩

/-- C9: the claim says lca_2nodes is symmetric and associative on every
parsed tree.  On the parsed tree of exL3 both laws fail: lca(1,2) is node 0
while lca(2,1) crashes (none), and lca(lca(0,1),3) is node 0 while
lca(0,lca(1,3)) crashes. -/
theorem c9_counterexample :
    (¬ lca_2nodes exST3 1 2 = lca_2nodes exST3 2 1) ∧
    ¬ ((lca_2nodes exST3 0 1).bind (fun u => lca_2nodes exST3 u 3) =
        (lca_2nodes exST3 1 3).bind (fun v => lca_2nodes exST3 0 v)) := by decide

/-- C9 (amended): on a state satisfying LcaWF (exact depth decrements,
rooted, unique root - the shape the specification assumes of parsed trees,
not guaranteed for all parser outputs), lca_2nodes is symmetric and
associative on nodes of the tree (associativity composed through
Option.bind, since each lca returns an optional node). -/
theorem c9_lca_symm_assoc (st : PhyloState) (hL : LcaWF st) (a b c : Nat)
    (ha : a < st.nodes.length) (hb : b < st.nodes.length) (hc : c < st.nodes.length) :
    lca_2nodes st a b = lca_2nodes st b a ∧
    (lca_2nodes st a b).bind (fun u => lca_2nodes st u c) =
      (lca_2nodes st b c).bind (fun v => lca_2nodes st a v) := by
  obtain ⟨hED, hR, hU⟩ := hL
  obtain ⟨u, hu1, hu2, hu3, hu4, hu5⟩ := lca_spec st hED hR hU a b ha hb
  constructor
  · obtain ⟨u', hu'1, hu'2, hu'3, hu'4, hu'5⟩ := lca_spec st hED hR hU b a hb ha
    have hdle1 : depthOf st u ≤ depthOf st u' := hu'5 u hu4 hu3
    have hdle2 : depthOf st u' ≤ depthOf st u := hu5 u' hu'4 hu'3
    have hdeq : depthOf st u = depthOf st u' := by omega
    have huu : u = u' :=
      anc_depth_inj st hED (depthOf st a) a ha (Nat.le_refl _) u hu3 u' hu'4 hdeq
    rw [hu1, hu'1, huu]
  · obtain ⟨v, hv1, hv2, hv3, hv4, hv5⟩ := lca_spec st hED hR hU u c hu2 hc
    obtain ⟨w, hw1, hw2, hw3, hw4, hw5⟩ := lca_spec st hED hR hU b c hb hc
    obtain ⟨z, hz1, hz2, hz3, hz4, hz5⟩ := lca_spec st hED hR hU a w ha hw2
    rw [hu1, hw1]
    show lca_2nodes st u c = lca_2nodes st a w
    rw [hv1, hz1]
    have hva : v ∈ chainF st (depthOf st a + 1) a :=
      chain_trans_anc st hED (depthOf st a) a ha (Nat.le_refl _) u hu3 v hv3
    have hvb : v ∈ chainF st (depthOf st b + 1) b :=
      chain_trans_anc st hED (depthOf st b) b hb (Nat.le_refl _) u hu4 v hv3
    have hzb : z ∈ chainF st (depthOf st b + 1) b :=
      chain_trans_anc st hED (depthOf st b) b hb (Nat.le_refl _) w hw3 z hz4
    have hzc : z ∈ chainF st (depthOf st c + 1) c :=
      chain_trans_anc st hED (depthOf st c) c hc (Nat.le_refl _) w hw4 z hz4
    have hzu : z ∈ chainF st (depthOf st u + 1) u :=
      chain_between st hED (depthOf st a) a ha (Nat.le_refl _) u hu3 z hz3
        (hu5 z hz3 hzb)
    have hdzv : depthOf st z ≤ depthOf st v := hv5 z hzu hzc
    have hvw : v ∈ chainF st (depthOf st w + 1) w :=
      chain_between st hED (depthOf st b) b hb (Nat.le_refl _) w hw3 v hvb
        (hw5 v hvb hv4)
    have hdvz : depthOf st v ≤ depthOf st z := hz5 v hva hvw
    have hdeq2 : depthOf st v = depthOf st z := by omega
    have hvz : v = z :=
      anc_depth_inj st hED (depthOf st a) a ha (Nat.le_refl _) v hva z hz3 hdeq2
    rw [hvz]

theorem c9_witness :
    (1 < exST1.nodes.length ∧ 2 < exST1.nodes.length ∧ 3 < exST1.nodes.length) ∧
    lca_2nodes exST1 1 2 = lca_2nodes exST1 2 1 ∧
    (lca_2nodes exST1 1 2).bind (fun u => lca_2nodes exST1 u 3) =
      (lca_2nodes exST1 2 3).bind (fun v => lca_2nodes exST1 1 v) :=
  have h := c9_lca_symm_assoc exST1 (lcaWF_of exST1 (by decide) (by decide) (by decide))
    1 2 3 (by decide) (by decide) (by decide)
  ⟨⟨by decide, by decide, by decide⟩, h.1, h.2⟩
